import Mathlib

/-!
Verification development for the style resolution and class identity
subsystem of an HTML/CSS to Webflow converter.  The JavaScript sources are
shallowly embedded: strings are lists of characters, JavaScript Map objects
are association lists in insertion order, and the regular expressions used
by the sources are embedded as explicit character scans with the same
match semantics.
-/

/-- Character class of the JavaScript regex fragment [a-zA-Z0-9_-], which is
the character set of both the class token regex in transformSelector and the
token regexes in calculateSpecificity. -/
def isIdentChar (c : Char) : Bool :=
  c.isAlpha || c.isDigit || c = '_' || c = '-'

/-- Character class of [a-zA-Z_-], the leading character admitted by the
original class name validity test in generateClassName. -/
def isIdentStart (c : Char) : Bool :=
  c.isAlpha || c = '_' || c = '-'

/-- Decimal digit character for a digit value below ten. -/
def digitChar : ℕ → Char
  | 0 => '0' | 1 => '1' | 2 => '2' | 3 => '3' | 4 => '4'
  | 5 => '5' | 6 => '6' | 7 => '7' | 8 => '8' | _ => '9'

/-- Numeric value of a decimal digit character, the partial inverse of
digitChar. -/
def digitVal (c : Char) : ℕ :=
  match c with
  | '0' => 0 | '1' => 1 | '2' => 2 | '3' => 3 | '4' => 4
  | '5' => 5 | '6' => 6 | '7' => 7 | '8' => 8 | _ => 9

/-- Least significant first decimal digits of a number, with explicit fuel so
that the definition is structural and kernel reducible. -/
def digitsRevFuel : ℕ → ℕ → List Char
  | 0, _ => []
  | fuel + 1, n => if n = 0 then [] else digitChar (n % 10) :: digitsRevFuel fuel (n / 10)

/-- Decimal rendering of a natural number, as produced by JavaScript template
interpolation of a nonnegative integer. -/
def natToStr (n : ℕ) : String :=
  if n = 0 then "0" else String.mk (digitsRevFuel (n + 1) n).reverse

/-- Decoder for least significant first digit lists, used to show that
decimal rendering is injective. -/
def ofDigitsRev : List Char → ℕ
  | [] => 0
  | c :: t => digitVal c + 10 * ofDigitsRev t

/-- State of a ClassNamingSystem instance: the configured prefix, the map
from original to generated class names, the reverse map, and the counter.
Both maps are JavaScript Map objects kept in insertion order. -/
structure Registry where
  pfx : String
  classMap : List (String × String)
  reverseMap : List (String × String)
  counter : ℕ
deriving DecidableEq, Repr

/-- A freshly constructed ClassNamingSystem with the given prefix; the
source default for the prefix is the string html2wf followed by a hyphen. -/
def mkRegistry (p : String) : Registry :=
  { pfx := p, classMap := [], reverseMap := [], counter := 0 }

/-- The reset method: clears both maps and the counter, keeps the prefix. -/
def resetRegistry (R : Registry) : Registry :=
  { R with classMap := [], reverseMap := [], counter := 0 }

/-- Validity test applied to an original class name before it is reused in a
generated name: the JavaScript truthiness guard plus the anchored regex that
requires a letter, underscore or hyphen followed by identifier characters. -/
def validClassIdent (s : String) : Bool :=
  match s.data with
  | [] => false
  | c :: rest => isIdentStart c && rest.all isIdentChar

/-- Keys of an association list, in insertion order. -/
def keysOf (m : List (String × String)) : List String := m.map Prod.fst

/-- Candidate generated name number n: the base name itself for n equal to
zero, otherwise the base name with a hyphen separated numeric suffix, exactly
as built by the uniqueness loop of generateClassName. -/
def candidate (g : String) (n : ℕ) : String :=
  if n = 0 then g else g ++ "-" ++ natToStr n

/-- The uniqueness loop of generateClassName: starting from suffix index k,
return the first candidate that is not among the existing generated names.
Fuel makes the recursion structural; callers pass enough fuel for the loop
to succeed. -/
def findFresh (keys : List String) (g : String) : ℕ → ℕ → String
  | 0, k => candidate g k
  | fuel + 1, k => if candidate g k ∈ keys then findFresh keys g fuel (k + 1) else candidate g k

/-- The generateClassName method.  If the original name is already mapped
its generated name is returned and the state is unchanged.  Otherwise a base
name is proposed from the prefix and either the original name or the
counter, made unique against the reverse map, registered in both maps, and
the counter is incremented. -/
def generateClassName (R : Registry) (orig : String) : Registry × String :=
  match R.classMap.lookup orig with
  | some g => (R, g)
  | none =>
    let base :=
      if validClassIdent orig then R.pfx ++ orig
      else R.pfx ++ "class-" ++ natToStr R.counter
    let u := findFresh (keysOf R.reverseMap) base ((keysOf R.reverseMap).length + 1) 0
    ({ R with
        classMap := R.classMap ++ [(orig, u)],
        reverseMap := R.reverseMap ++ [(u, orig)],
        counter := R.counter + 1 }, u)

/-- The getGeneratedClassName method.  The source coalesces the map result
with null, so an empty string stored in the map is reported as absent. -/
def getGeneratedClassName (R : Registry) (orig : String) : Option String :=
  match R.classMap.lookup orig with
  | some g => if g = "" then none else some g
  | none => none

/-- The getOriginalClassName method, with the same null coalescing as
getGeneratedClassName. -/
def getOriginalClassName (R : Registry) (gen : String) : Option String :=
  match R.reverseMap.lookup gen with
  | some o => if o = "" then none else some o
  | none => none

/-- The hasGeneratedClassName method. -/
def hasGeneratedClassName (R : Registry) (orig : String) : Bool :=
  (R.classMap.lookup orig).isSome

/-- Assignment into a JavaScript plain object: an existing key keeps its
position and receives the new value, a new key is appended at the end. -/
def assocSet : List (String × String) → String → String → List (String × String)
  | [], k, v => [(k, v)]
  | (k', v') :: t, k, v =>
    if k' = k then (k', v) :: t else (k', v') :: assocSet t k v

/-- The getAllClassMappings method: copies every classMap entry, in
insertion order, into a freshly created plain object. -/
def getAllClassMappings (R : Registry) : List (String × String) :=
  R.classMap.foldl (fun acc p => assocSet acc p.1 p.2) []


/-- One step of the transformSelector scan, with explicit fuel so the
recursion is structural; the fuel is always instantiated with the input
length, which bounds the number of scan steps.  The global regex finds
every dot followed by a nonempty run of identifier characters; the callback
registers the embedded name when it is not yet known and substitutes the
generated name, falling back to the original token when the generated name
is falsy.  The registry state is threaded through the matches from left to
right. -/
def transformCharsF : ℕ → Registry → List Char → Registry × List Char
  | 0, R, _ => (R, [])
  | _, R, [] => (R, [])
  | fuel + 1, R, c :: rest =>
    if c = '.' then
      let run := rest.takeWhile isIdentChar
      if run.isEmpty then
        let p := transformCharsF fuel R rest
        (p.1, '.' :: p.2)
      else
        let name := String.mk run
        let R1 := if hasGeneratedClassName R name then R else (generateClassName R name).1
        let rep := match getGeneratedClassName R1 name with
          | some g => g.data
          | none => run
        let p := transformCharsF fuel R1 (rest.dropWhile isIdentChar)
        (p.1, '.' :: (rep ++ p.2))
    else
      let p := transformCharsF fuel R rest
      (p.1, c :: p.2)

/-- The transformSelector scan over a character list. -/
def transformChars (R : Registry) (l : List Char) : Registry × List Char :=
  transformCharsF l.length R l

/-- The transformSelector method on strings. -/
def transformSelector (R : Registry) (s : String) : Registry × String :=
  let p := transformChars R s.data
  (p.1, String.mk p.2)

/-- Fueled count of matches of the id token regex: a hash sign followed by
a nonempty run of identifier characters, scanning globally left to right
and resuming after each match. -/
def idCountF : ℕ → List Char → ℕ
  | 0, _ => 0
  | _, [] => 0
  | fuel + 1, c :: rest =>
    if c = '#' then
      if (rest.takeWhile isIdentChar).isEmpty then idCountF fuel rest
      else 1 + idCountF fuel (rest.dropWhile isIdentChar)
    else idCountF fuel rest

/-- Count of id token matches in a selector. -/
def idCount (l : List Char) : ℕ := idCountF l.length l

/-- Scan for the closing bracket of an attribute token after at least one
content character has been consumed: any character other than a newline may
stand between the brackets, and the lazy quantifier stops at the first
closing bracket.  Returns the suffix after the closing bracket. -/
def goClose : List Char → Option (List Char)
  | [] => none
  | c :: rest => if c = ']' then some rest else if c = '\n' then none else goClose rest

/-- Attribute token body match after an opening bracket: the lazy dot
quantifier must consume at least one character, none of which may be a
newline, before the first closing bracket. -/
def findClose : List Char → Option (List Char)
  | [] => none
  | c :: rest => if c = '\n' then none else goClose rest

/-- Fueled count of matches of the class level regex: a dot or colon
followed by a nonempty identifier run, or a bracketed attribute token,
scanning globally left to right. -/
def classCountF : ℕ → List Char → ℕ
  | 0, _ => 0
  | _, [] => 0
  | fuel + 1, c :: rest =>
    if c = '.' ∨ c = ':' then
      if (rest.takeWhile isIdentChar).isEmpty then classCountF fuel rest
      else 1 + classCountF fuel (rest.dropWhile isIdentChar)
    else if c = '[' then
      match findClose rest with
      | some after => 1 + classCountF fuel after
      | none => classCountF fuel rest
    else classCountF fuel rest

/-- Count of class, attribute and pseudo class token matches. -/
def classCount (l : List Char) : ℕ := classCountF l.length l

/-- Fueled count of matches of the element level regex: a nonempty
identifier run, or a double colon followed by a nonempty identifier run,
scanning globally left to right. -/
def elemCountF : ℕ → List Char → ℕ
  | 0, _ => 0
  | _, [] => 0
  | _ + 1, [c] => if isIdentChar c then 1 else 0
  | fuel + 1, c :: c2 :: rest2 =>
    if isIdentChar c then 1 + elemCountF fuel ((c2 :: rest2).dropWhile isIdentChar)
    else if c = ':' ∧ c2 = ':' ∧ ¬(rest2.takeWhile isIdentChar).isEmpty then
      1 + elemCountF fuel (rest2.dropWhile isIdentChar)
    else elemCountF fuel (c2 :: rest2)

/-- Count of element level token matches. -/
def elemCount (l : List Char) : ℕ := elemCountF l.length l

/-- The calculateSpecificity method: one hundred per id token, ten per
class, attribute or pseudo class token, one per element level token. -/
def calculateSpecificity (s : String) : ℕ :=
  100 * idCount s.data + 10 * classCount s.data + elemCount s.data

/-- Raw stylesheet rule as delivered by the underlying CSS tokenizer: the
selector text, the declarations in source order, and the raw text of the
whole rule. -/
structure CssRule where
  selector : String
  decls : List (String × String)
  raw : String
deriving DecidableEq, Repr

/-- Top level stylesheet item as delivered by the underlying CSS tool: a
plain rule, or an at rule with a name, a parameter string and nested
rules. -/
inductive CssItem where
  | rule (r : CssRule)
  | atRule (name : String) (params : String) (rules : List CssRule)
deriving DecidableEq, Repr

/-- Processed style rule record produced by the CSS parser: selector text,
computed specificity, declaration map and raw original text. -/
structure StyleRule where
  selector : String
  specificity : ℕ
  properties : List (String × String)
  originalRule : String
deriving DecidableEq, Repr

/-- Media query group: the raw parameter string and the processed rules of
the block. -/
structure MediaQuery where
  query : String
  rules : List StyleRule
deriving DecidableEq, Repr

/-- Result of the CSS parser: top level rules and media query groups. -/
structure ParsedCss where
  styleRules : List StyleRule
  mediaQueries : List MediaQuery
deriving DecidableEq, Repr

/-- The processRule method: extracts the declarations into a plain object
in source order with later duplicates overwriting in place, and computes
the specificity of the selector text. -/
def processRule (r : CssRule) : StyleRule :=
  { selector := r.selector,
    specificity := calculateSpecificity r.selector,
    properties := r.decls.foldl (fun acc d => assocSet acc d.1 d.2) [],
    originalRule := r.raw }

/-- The parse method of the CSS parser: the rule walk visits every rule in
document order but skips rules whose parent is a media at rule; those are
collected afterwards into media query groups by the at rule walk. -/
def parseCss (items : List CssItem) : ParsedCss :=
  { styleRules := items.flatMap (fun it =>
      match it with
      | .rule r => [processRule r]
      | .atRule n _ rs => if n = "media" then [] else rs.map processRule),
    mediaQueries := items.filterMap (fun it =>
      match it with
      | .atRule n p rs =>
        if n = "media" then some { query := p, rules := rs.map processRule } else none
      | .rule _ => none) }

/-- Style rule record after selector rewriting: the specificity and
properties are spread from the parsed rule unchanged, the selector is the
transformed text, and the previous selector text is kept separately. -/
structure ProcessedRule where
  selector : String
  specificity : ℕ
  properties : List (String × String)
  originalRule : String
  originalSelector : String
deriving DecidableEq, Repr

/-- Media query group after selector rewriting. -/
structure ProcessedMedia where
  query : String
  rules : List ProcessedRule
deriving DecidableEq, Repr

/-- Processed CSS structure returned by processCssClasses. -/
structure ProcessedCss where
  styleRules : List ProcessedRule
  mediaQueries : List ProcessedMedia
deriving DecidableEq, Repr

/-- Rewrites a sequence of rules in order, threading the naming registry
through the selector transformations. -/
def processRules (R : Registry) (rs : List StyleRule) : Registry × List ProcessedRule :=
  rs.foldl
    (fun st r =>
      let t := transformSelector st.1 r.selector
      (t.1, st.2 ++ [{ selector := t.2, specificity := r.specificity,
                       properties := r.properties, originalRule := r.originalRule,
                       originalSelector := r.selector }]))
    (R, [])

/-- The processCssClasses method of the conversion manager: rewrites the
selectors of the top level rules first, then of every media query group,
copying every other rule field unchanged. -/
def processCssClasses (R : Registry) (css : ParsedCss) : Registry × ProcessedCss :=
  let s := processRules R css.styleRules
  let m := css.mediaQueries.foldl
    (fun st mq =>
      let t := processRules st.1 mq.rules
      (t.1, st.2 ++ [{ query := mq.query, rules := t.2 }]))
    (s.1, ([] : List ProcessedMedia))
  (m.1, { styleRules := s.2, mediaQueries := m.2 })

/-- Object.assign: copies every source entry into the target object with
plain object update semantics. -/
def jsAssign (obj src : List (String × String)) : List (String × String) :=
  src.foldl (fun a p => assocSet a p.1 p.2) obj

/-- Adds a rule to the selector grouping object: an existing selector key
keeps its position and the rule is appended to its bucket, a new selector
key is appended at the end. -/
def groupAdd : List (String × List ProcessedRule) → String → ProcessedRule →
    List (String × List ProcessedRule)
  | [], k, r => [(k, [r])]
  | (k', rs) :: t, k, r =>
    if k' = k then (k', rs ++ [r]) :: t else (k', rs) :: groupAdd t k r

/-- The grouping step of applyStylesToElements: buckets the processed top
level rules by selector text. -/
def stylesBySelector (rules : List ProcessedRule) : List (String × List ProcessedRule) :=
  rules.foldl (fun acc r => groupAdd acc r.selector r) []

/-- Reads a selector bucket; an absent key behaves as an empty bucket. -/
def lookupGroup (groups : List (String × List ProcessedRule)) (k : String) :
    List ProcessedRule :=
  (groups.lookup k).getD []

/-- Lowercasing of a string, character by character. -/
def strToLower (s : String) : String := String.mk (s.data.map Char.toLower)

/-- Stable insertion of a rule into a list sorted by ascending specificity:
the rule goes before the first rule of equal or greater specificity, so two
rules of equal specificity keep their original relative order. -/
def insertBySpec (r : ProcessedRule) : List ProcessedRule → List ProcessedRule
  | [] => [r]
  | x :: t => if r.specificity ≤ x.specificity then r :: x :: t else x :: insertBySpec r t

/-- Stable sort by ascending specificity, as performed by the stable
JavaScript array sort of the conversion manager with the comparator that
subtracts specificities: inserting from the right with insertBySpec keeps
equal specificity rules in their original order. -/
def sortBySpec : List ProcessedRule → List ProcessedRule
  | [] => []
  | x :: t => insertBySpec x (sortBySpec t)

mutual
/-- Structural DOM node as delivered by the markup tool to the HTML parser:
tag name, attribute list, concatenated direct text content and child
element nodes.  The node list is a separate inductive so that all
recursions over the tree are structural. -/
inductive RawNode where
  | mk (name : String) (attribs : List (String × String)) (directText : String)
       (children : RawNodeList)
deriving DecidableEq
inductive RawNodeList where
  | nil
  | cons (hd : RawNode) (tl : RawNodeList)
deriving DecidableEq
end

/-- Tag name of a DOM node. -/
def RawNode.name : RawNode → String
  | .mk n _ _ _ => n

/-- Attribute list of a DOM node. -/
def RawNode.attribs : RawNode → List (String × String)
  | .mk _ a _ _ => a

/-- Concatenated direct text content of a DOM node. -/
def RawNode.directText : RawNode → String
  | .mk _ _ t _ => t

/-- Child elements of a DOM node. -/
def RawNode.children : RawNode → RawNodeList
  | .mk _ _ _ c => c

mutual
/-- Concatenation of all text in a subtree, used for textarea content. -/
def allText : RawNode → String
  | .mk _ _ t c => t ++ allTextList c
def allTextList : RawNodeList → String
  | .nil => ""
  | .cons h t => allText h ++ allTextList t
end

/-- The tag to element type map of mapElementType. -/
def tagMap : List (String × String) :=
  [("div", "div"), ("span", "text"), ("p", "paragraph"),
   ("h1", "heading"), ("h2", "heading"), ("h3", "heading"),
   ("h4", "heading"), ("h5", "heading"), ("h6", "heading"),
   ("a", "link"), ("img", "image"), ("ul", "list"), ("ol", "list"),
   ("li", "listItem"), ("button", "button"), ("form", "form"),
   ("input", "input"), ("textarea", "textarea"), ("select", "select"),
   ("option", "option"), ("video", "video"), ("audio", "audio"),
   ("iframe", "embed"), ("section", "section"), ("article", "div"),
   ("aside", "div"), ("footer", "footer"), ("header", "header"),
   ("nav", "nav"), ("main", "div"), ("figure", "div"),
   ("figcaption", "div"), ("blockquote", "blockquote"), ("hr", "divider"),
   ("br", "lineBreak"), ("table", "table"), ("tr", "tableRow"),
   ("td", "tableCell"), ("th", "tableCell"), ("thead", "tableHead"),
   ("tbody", "tableBody"), ("tfoot", "tableFoot")]

/-- The mapElementType method: a falsy tag name and any unmapped tag fall
back to the div type. -/
def mapElementType (tagName : String) : String :=
  if tagName = "" then "div"
  else (tagMap.lookup (strToLower tagName)).getD "div"

/-- The parseAttributes method: every attribute except class and style. -/
def parseAttributes (attribs : List (String × String)) : List (String × String) :=
  attribs.filter (fun p => p.1 ≠ "class" && p.1 ≠ "style")

/-- Splitting on whitespace runs with empty tokens dropped, the combined
effect of the class attribute split and the Boolean filter. -/
def splitWsAux : List Char → List Char → List String
  | [], cur => if cur.isEmpty then [] else [String.mk cur.reverse]
  | c :: rest, cur =>
    if c.isWhitespace then
      if cur.isEmpty then splitWsAux rest [] else String.mk cur.reverse :: splitWsAux rest []
    else splitWsAux rest (c :: cur)

/-- The class list computation of parseElement: an absent or empty class
attribute yields the empty list, otherwise the attribute is split on
whitespace and empty tokens are dropped. -/
def classList (attr : Option String) : List String :=
  match attr with
  | none => []
  | some s => splitWsAux s.data []

/-- The camel casing replacement of parseInlineStyles: every hyphen
followed by a lowercase letter becomes the uppercase letter. -/
def camelize : List Char → List Char
  | [] => []
  | [c] => [c]
  | c :: d :: rest =>
    if c = '-' && d.isLower then d.toUpper :: camelize rest
    else c :: camelize (d :: rest)

/-- The parseInlineStyles method: a falsy style attribute yields an empty
map; otherwise the attribute is split on semicolons, each part is split on
colons, and a part with truthy trimmed property and value adds the camel
cased property. -/
def parseInlineStyles (attr : Option String) : List (String × String) :=
  match attr with
  | none => []
  | some s =>
    if s = "" then []
    else
      (s.splitOn ";").foldl
        (fun acc part =>
          match part.splitOn ":" with
          | p :: v :: _ =>
            let property := p.trim
            let value := v.trim
            if property ≠ "" && value ≠ "" then
              assocSet acc (String.mk (camelize property.data)) value
            else acc
          | _ => acc)
        []

/-- Tags whose direct text content is extracted by getElementContent. -/
def textElements : List String :=
  ["p", "span", "h1", "h2", "h3", "h4", "h5", "h6", "button", "a"]

/-- The getElementContent method: direct text for the text tags, the value
or checked state for inputs, the full text for textareas, otherwise the
empty string. -/
def getElementContent (n : RawNode) : String :=
  let tagL := strToLower n.name
  if tagL ∈ textElements then n.directText.trim
  else if tagL = "input" then
    match n.attribs.lookup "type" with
    | some ty =>
      if ty = "text" ∨ ty = "email" ∨ ty = "password" ∨ ty = "number" then
        (n.attribs.lookup "value").getD ""
      else if ty = "checkbox" ∨ ty = "radio" then
        match n.attribs.lookup "checked" with
        | some v => if v ≠ "" then "checked" else ""
        | none => ""
      else ""
    | none => ""
  else if tagL = "textarea" then allText n
  else ""

mutual
/-- Parsed element structure built by parseElement: unique id, tag name,
mapped element type, attribute map, class list, inline style map, direct
content and children.  The list of children is a separate inductive so
that all recursions are structural. -/
inductive Parsed where
  | mk (id tagName etype : String) (attributes : List (String × String))
       (classes : List String) (styles : List (String × String))
       (content : String) (children : ParsedList)
deriving DecidableEq
inductive ParsedList where
  | nil
  | cons (hd : Parsed) (tl : ParsedList)
deriving DecidableEq
end

/-- Unique id of a parsed element. -/
def Parsed.id : Parsed → String
  | .mk i _ _ _ _ _ _ _ => i

/-- Element type of a parsed element. -/
def Parsed.etype : Parsed → String
  | .mk _ _ e _ _ _ _ _ => e

/-- Class list of a parsed element. -/
def Parsed.classes : Parsed → List String
  | .mk _ _ _ _ c _ _ _ => c

/-- Content of a parsed element. -/
def Parsed.content : Parsed → String
  | .mk _ _ _ _ _ _ c _ => c

mutual
/-- The parseElement method with its id counter: assigns the next id to the
current element, then parses the children in order with the incremented
counter threaded through.  Returns the final counter and the element. -/
def parseOne (idc : ℕ) (n : RawNode) : ℕ × Parsed :=
  match n with
  | .mk name attribs _ children =>
    let p := parseList (idc + 1) children
    (p.1, .mk ("el-" ++ natToStr idc) name (mapElementType name)
         (parseAttributes attribs)
         (classList (attribs.lookup "class"))
         (parseInlineStyles (attribs.lookup "style"))
         (getElementContent n) p.2)
def parseList (idc : ℕ) : RawNodeList → ℕ × ParsedList
  | .nil => (idc, .nil)
  | .cons h t =>
    let p := parseOne idc h
    let q := parseList p.1 t
    (q.1, .cons p.2 q.2)
end

mutual
/-- The preGenerateClassNames walk of the conversion manager: registers
every class of every element, depth first in document order. -/
def preGenerateClassNames (R : Registry) : Parsed → Registry
  | .mk _ _ _ _ classes _ _ children =>
    preGenList (classes.foldl (fun r c => (generateClassName r c).1) R) children
def preGenList (R : Registry) : ParsedList → Registry
  | .nil => R
  | .cons h t => preGenList (preGenerateClassNames R h) t
end

/-- Webflow element record as created by the element mapper.  Child links
are element ids, the parent link is the parent id when present, and the
classes field is only ever set by the applyClass method, which the
conversion pipeline never calls. -/
structure WebflowEl where
  id : String
  etype : String
  preset : String
  attributes : List (String × String)
  styles : List (String × String)
  childIds : List String
  content : Option String
  parent : Option String
  classes : Option (List String)
deriving DecidableEq, Repr

/-- The element preset table loaded by the element mapper. -/
def elementPresets : List (String × String) :=
  [("div", "preset-div"), ("text", "preset-text"),
   ("paragraph", "preset-paragraph"), ("heading", "preset-heading"),
   ("link", "preset-link"), ("image", "preset-image"),
   ("list", "preset-list"), ("listItem", "preset-list-item"),
   ("button", "preset-button"), ("form", "preset-form"),
   ("input", "preset-input"), ("textarea", "preset-textarea"),
   ("select", "preset-select"), ("option", "preset-option"),
   ("video", "preset-video"), ("audio", "preset-audio"),
   ("embed", "preset-embed"), ("section", "preset-section"),
   ("footer", "preset-footer"), ("header", "preset-header"),
   ("nav", "preset-nav"), ("blockquote", "preset-blockquote"),
   ("divider", "preset-divider"), ("lineBreak", "preset-line-break"),
   ("table", "preset-table"), ("tableRow", "preset-table-row"),
   ("tableCell", "preset-table-cell"), ("tableHead", "preset-table-head"),
   ("tableBody", "preset-table-body"), ("tableFoot", "preset-table-foot")]

/-- The setElementAttributes method: all parsed attributes are copied into
the fresh attribute object, then a few attributes are reassigned with the
same values for some element types. -/
def setElementAttributes (ety : String) (attrs : List (String × String)) :
    List (String × String) :=
  let a := jsAssign [] attrs
  let reSet := fun (acc : List (String × String)) (k : String) =>
    match attrs.lookup k with
    | some v => assocSet acc k v
    | none => acc
  if ety = "link" then reSet a "href"
  else if ety = "image" then reSet (reSet a "src") "alt"
  else if ety = "input" then reSet (reSet a "type") "placeholder"
  else a

/-- Webflow ids of a list of parsed children, in order; these are the ids
pushed into the parent during child creation. -/
def childWebflowIds : ParsedList → List String
  | .nil => []
  | .cons h t => ("webflow-" ++ h.id) :: childWebflowIds t

mutual
/-- The mapElement method: creates the element record for a parsed element,
stores it in the created element map, then recurses into the children,
which push their ids into the parent record.  The returned entry list is
the created element map in insertion order with final field values. -/
def mapElement (parentId : Option String) (p : Parsed) : List (String × WebflowEl) :=
  match p with
  | .mk pid _ ety attrs _ _ content children =>
    let preset := (elementPresets.lookup ety).getD "preset-div"
    let wid := "webflow-" ++ pid
    let el : WebflowEl :=
      { id := wid, etype := ety, preset := preset,
        attributes := setElementAttributes ety attrs,
        styles := [],
        childIds := childWebflowIds children,
        content := if content ≠ "" then some content else none,
        parent := parentId,
        classes := none }
    (pid, el) :: mapChildren (some wid) children
def mapChildren (parentId : Option String) : ParsedList → List (String × WebflowEl)
  | .nil => []
  | .cons h t => mapElement parentId h ++ mapChildren parentId t
end

/-- The findMatchingRules method of the conversion manager: bucket lookups
for every element class prefixed with a dot, then for the lowercased
element type, sorted stably by ascending specificity. -/
def findMatchingRules (el : WebflowEl)
    (groups : List (String × List ProcessedRule)) : List ProcessedRule :=
  let fromClasses :=
    match el.classes with
    | none => []
    | some cls => cls.flatMap (fun c => lookupGroup groups ("." ++ c))
  sortBySpec (fromClasses ++ lookupGroup groups (strToLower el.etype))

/-- The merge step of applyStylesToElement: declarations of the sorted
matching rules written in order, later rules overriding earlier ones. -/
def mergeRules (rules : List ProcessedRule) : List (String × String) :=
  rules.foldl (fun acc r => jsAssign acc r.properties) []

/-- The applyStylesToElements method: every created element receives the
merged declarations of its matching rules; an element with no matching
rule is left untouched. -/
def applyStylesToElements (els : List WebflowEl)
    (groups : List (String × List ProcessedRule)) : List WebflowEl :=
  els.map (fun el =>
    let m := findMatchingRules el groups
    if m.isEmpty then el else { el with styles := jsAssign el.styles (mergeRules m) })

/-- Result of a conversion run: the final Webflow elements and the class
mapping snapshot. -/
structure ConvertResult where
  elements : List WebflowEl
  classMap : List (String × String)
deriving DecidableEq, Repr

/-- The convert method of the conversion manager, from the structural tree
and the stylesheet item list onward: parse the markup tree, parse the
stylesheet, preregister every markup class, rewrite the stylesheet
selectors, create the Webflow elements, and apply the top level styles. -/
def convertRun (pfxStr : String) (dom : RawNode) (css : List CssItem) : ConvertResult :=
  let parsed := (parseOne 0 dom).2
  let R1 := preGenerateClassNames (mkRegistry pfxStr) parsed
  let pc := processCssClasses R1 (parseCss css)
  let entries := mapElement none parsed
  let groups := stylesBySelector pc.2.styleRules
  { elements := applyStylesToElements (entries.map Prod.snd) groups,
    classMap := getAllClassMappings pc.1 }

/-- Resolved top level style of one element against processed top level
rules, the per element body of applyStylesToElements. -/
def resolvedTopStyle (el : WebflowEl) (rules : List ProcessedRule) :
    List (String × String) :=
  let m := findMatchingRules el (stylesBySelector rules)
  if m.isEmpty then el.styles else jsAssign el.styles (mergeRules m)

/-- Heap of plain objects, used to state the snapshot freshness of
getAllClassMappings: addresses mapped to object contents. -/
abbrev Heap : Type := List (ℕ × List (String × String))

/-- Content of the object stored at an address. -/
def heapGet (h : Heap) (a : ℕ) : Option (List (String × String)) :=
  List.lookup a h

/-- An address unused by the heap, as produced by allocating a fresh empty
object. -/
def freshAddr (h : Heap) : ℕ :=
  (List.map Prod.fst h).foldr max 0 + 1

/-- Assignment of one key in the object stored at an address. -/
def heapSet (h : Heap) (a : ℕ) (k v : String) : Heap :=
  List.map (fun e => if e.1 = a then (e.1, assocSet e.2 k v) else e) h

/-- The getAllClassMappings method against a heap that stores the class
map object at the given address: allocates a fresh empty object, copies
every entry of the class map into it in order, and returns the new heap
and the address of the snapshot. -/
def getAllClassMappingsHeap (h : Heap) (classMapAddr : ℕ) : Heap × ℕ :=
  let a := freshAddr h
  let content := ((heapGet h classMapAddr).getD []).foldl
    (fun acc p => assocSet acc p.1 p.2) []
  (List.append h [(a, content)], a)

/-- Number of maximal runs of identifier characters in a character list,
computed with a flag recording whether the previous character was an
identifier character.  This is the independent characterization of the
element level token count of calculateSpecificity. -/
def runsGo : Bool → List Char → ℕ
  | _, [] => 0
  | prev, c :: t => (if isIdentChar c && !prev then 1 else 0) + runsGo (isIdentChar c) t

/-- Number of maximal identifier character runs of a list. -/
def runsCount (l : List Char) : ℕ := runsGo false l

/-- Bijection invariant of the naming registry: both key sequences are
duplicate free, the two maps are mutual inverses entry by entry, and every
generated name is a nonempty string. -/
def RegistryInv (R : Registry) : Prop :=
  (keysOf R.classMap).Nodup ∧ (keysOf R.reverseMap).Nodup ∧
  (∀ p ∈ R.classMap, R.reverseMap.lookup p.2 = some p.1) ∧
  (∀ q ∈ R.reverseMap, R.classMap.lookup q.2 = some q.1) ∧
  (∀ p ∈ R.classMap, p.2 ≠ "")

instance instDecidableRegistryInv (R : Registry) : Decidable (RegistryInv R) := by
  unfold RegistryInv
  infer_instance

/-- Iterated registration of the same original name. -/
def genIter (R : Registry) (s : String) : ℕ → Registry
  | 0 => R
  | n + 1 => (generateClassName (genIter R s n) s).1

/-- A registry is well prefixed when its prefix consists of identifier
characters only and every class map value stored under a nonempty
identifier key is itself a nonempty identifier string; every registry
reachable through the public operations from a fresh instance with an
identifier prefix satisfies this. -/
def GoodReg (R : Registry) : Prop :=
  R.pfx.data.all isIdentChar = true ∧
  ∀ p ∈ R.classMap, (p.1.data.all isIdentChar = true ∧ p.1 ≠ "") →
    (p.2.data.all isIdentChar = true ∧ p.2 ≠ "")

instance instDecidableGoodReg (R : Registry) : Decidable (GoodReg R) := by
  unfold GoodReg
  infer_instance

/-- Whether a character list starts with an identifier character. -/
def identHeadB : List Char → Bool
  | [] => false
  | c :: _ => isIdentChar c

/-- Rewrite correspondence between a selector and its transformed text: the
two lists agree character by character except that each class token, a dot
followed by a maximal nonempty identifier run, may have its run replaced by
another nonempty identifier run. -/
inductive Rw : List Char → List Char → Prop where
  | nil : Rw [] []
  | copy (c : Char) {s t : List Char} (hc : ¬(c = '.' ∧ identHeadB s = true))
      (h : Rw s t) : Rw (c :: s) (c :: t)
  | seg {run g s t : List Char} (hr : run ≠ []) (hri : run.all isIdentChar = true)
      (hg : g ≠ []) (hgi : g.all isIdentChar = true)
      (hs : identHeadB s = false) (h : Rw s t) :
      Rw ('.' :: (run ++ s)) ('.' :: (g ++ t))

/-- The DOM of the end to end scenario markup: a body holding a div with
class container holding a p with class text and text content Hi. -/
def pNodeC2 : RawNode := .mk "p" [("class", "text")] "Hi" .nil

/-- The div node of the end to end scenario. -/
def divNodeC2 : RawNode := .mk "div" [("class", "container")] "" (.cons pNodeC2 .nil)

/-- The body node of the end to end scenario. -/
def domC2 : RawNode := .mk "body" [] "" (.cons divNodeC2 .nil)

/-- The stylesheet of the end to end scenario as delivered by the CSS
tokenizer: three flat rules. -/
def cssC2 : List CssItem :=
  [.rule { selector := ".container", decls := [("width", "100%")],
           raw := ".container{width:100%}" },
   .rule { selector := "p", decls := [("color", "red")], raw := "p{color:red}" },
   .rule { selector := ".text", decls := [("color", "blue")], raw := ".text{color:blue}" }]


theorem dropWhile_length_le (p : Char → Bool) (l : List Char) :
    (l.dropWhile p).length ≤ l.length :=
  (List.dropWhile_sublist p).length_le

theorem idCountF_congr :
    ∀ (f1 : ℕ) (f2 : ℕ) (l : List Char), l.length ≤ f1 → l.length ≤ f2 →
      idCountF f1 l = idCountF f2 l := by
  intro f1
  induction f1 with
  | zero =>
    intro f2 l h1 _
    have : l = [] := List.length_eq_zero.1 (Nat.le_zero.1 h1)
    subst this
    cases f2 <;> simp [idCountF]
  | succ f ih =>
    intro f2 l h1 h2
    cases l with
    | nil => cases f2 <;> simp [idCountF]
    | cons c rest =>
      cases f2 with
      | zero => simp at h2
      | succ f2' =>
        simp only [List.length_cons, Nat.succ_le_succ_iff] at h1 h2
        have hd : (rest.dropWhile isIdentChar).length ≤ rest.length :=
          dropWhile_length_le _ _
        simp only [idCountF]
        by_cases hc : c = '#'
        · by_cases he : (rest.takeWhile isIdentChar).isEmpty
          · simp [hc, he, ih f2' rest h1 h2]
          · simp [hc, he, ih f2' _ (le_trans hd h1) (le_trans hd h2)]
        · simp [hc, ih f2' rest h1 h2]

theorem idCount_cons (c : Char) (rest : List Char) :
    idCount (c :: rest) =
      if c = '#' then
        if (rest.takeWhile isIdentChar).isEmpty then idCount rest
        else 1 + idCount (rest.dropWhile isIdentChar)
      else idCount rest := by
  have hd : (rest.dropWhile isIdentChar).length ≤ rest.length := dropWhile_length_le _ _
  simp only [idCount, List.length_cons, idCountF]
  by_cases hc : c = '#'
  · by_cases he : (rest.takeWhile isIdentChar).isEmpty
    · simp [hc, he, idCountF_congr rest.length (rest.length + 1) rest (by omega) (by omega)]
    · simp [hc, he,
        idCountF_congr rest.length (rest.dropWhile isIdentChar).length
          (rest.dropWhile isIdentChar) (dropWhile_length_le _ _) (le_refl _)]
  · simp [hc, idCountF_congr rest.length (rest.length + 1) rest (by omega) (by omega)]

theorem classCountF_congr :
    ∀ (f1 : ℕ) (f2 : ℕ) (l : List Char), l.length ≤ f1 → l.length ≤ f2 →
      classCountF f1 l = classCountF f2 l := by
  have hgo : ∀ (l t : List Char), goClose l = some t → t.length < l.length := by
    intro l
    induction l with
    | nil => intro t ht; simp [goClose] at ht
    | cons d ds ih =>
      intro t ht
      by_cases hd : d = ']'
      · simp [goClose, hd] at ht
        subst ht
        simp
      · by_cases hn : d = '\n'
        · simp [goClose, hd, hn] at ht
        · simp only [goClose, if_neg hd, if_neg hn] at ht
          have := ih t ht
          simp only [List.length_cons]
          omega
  have hfc : ∀ (l t : List Char), findClose l = some t → t.length < l.length := by
    intro l t ht
    cases l with
    | nil => simp [findClose] at ht
    | cons d ds =>
      simp only [findClose] at ht
      by_cases hn : d = '\n'
      · simp [hn] at ht
      · simp only [if_neg hn] at ht
        have := hgo ds t ht
        simp only [List.length_cons]
        omega
  intro f1
  induction f1 with
  | zero =>
    intro f2 l h1 _
    have : l = [] := List.length_eq_zero.1 (Nat.le_zero.1 h1)
    subst this
    cases f2 <;> simp [classCountF]
  | succ f ih =>
    intro f2 l h1 h2
    cases l with
    | nil => cases f2 <;> simp [classCountF]
    | cons c rest =>
      cases f2 with
      | zero => simp at h2
      | succ f2' =>
        simp only [List.length_cons, Nat.succ_le_succ_iff] at h1 h2
        have hd : (rest.dropWhile isIdentChar).length ≤ rest.length :=
          dropWhile_length_le _ _
        simp only [classCountF]
        by_cases hc : c = '.' ∨ c = ':'
        · by_cases he : (rest.takeWhile isIdentChar).isEmpty
          · simp [hc, he, ih f2' rest h1 h2]
          · simp [hc, he, ih f2' _ (le_trans hd h1) (le_trans hd h2)]
        · by_cases hb : c = '['
          · cases hafter : findClose rest with
            | some after =>
              have hlt := hfc rest after hafter
              simp [hc, hb, hafter, ih f2' after (by omega) (by omega)]
            | none => simp [hc, hb, hafter, ih f2' rest h1 h2]
          · simp [hc, hb, ih f2' rest h1 h2]

theorem classCount_cons (c : Char) (rest : List Char) :
    classCount (c :: rest) =
      if c = '.' ∨ c = ':' then
        if (rest.takeWhile isIdentChar).isEmpty then classCount rest
        else 1 + classCount (rest.dropWhile isIdentChar)
      else if c = '[' then
        match findClose rest with
        | some after => 1 + classCount after
        | none => classCount rest
      else classCount rest := by
  have key := classCountF_congr (rest.length + 1) (rest.length + 1)
  simp only [classCount, List.length_cons, classCountF]
  by_cases hc : c = '.' ∨ c = ':'
  · by_cases he : (rest.takeWhile isIdentChar).isEmpty
    · simp [hc, he,
        classCountF_congr rest.length (rest.length + 1) rest (by omega) (by omega)]
    · simp [hc, he,
        classCountF_congr rest.length (rest.dropWhile isIdentChar).length
          (rest.dropWhile isIdentChar) (dropWhile_length_le _ _) (le_refl _)]
  · by_cases hb : c = '['
    · cases hafter : findClose rest with
      | some after =>
        have hle : after.length ≤ rest.length := by
          by_contra hgt
          push_neg at hgt
          have : classCountF after.length after = classCountF after.length after := rfl
          -- length bound comes from the structure of findClose
          revert hafter
          cases rest with
          | nil => simp [findClose]
          | cons d ds =>
            intro hafter
            simp only [findClose] at hafter
            by_cases hn : d = '\n'
            · simp [hn] at hafter
            · simp only [if_neg hn] at hafter
              have hgo2 : ∀ (l t : List Char), goClose l = some t → t.length < l.length := by
                intro l
                induction l with
                | nil => intro t ht; simp [goClose] at ht
                | cons e es ih =>
                  intro t ht
                  by_cases he2 : e = ']'
                  · simp [goClose, he2] at ht
                    subst ht
                    simp
                  · by_cases hn2 : e = '\n'
                    · simp [goClose, he2, hn2] at ht
                    · simp only [goClose, if_neg he2, if_neg hn2] at ht
                      have := ih t ht
                      simp only [List.length_cons]
                      omega
              have := hgo2 ds after hafter
              simp only [List.length_cons] at hgt
              omega
        simp [hc, hb, hafter,
          classCountF_congr rest.length after.length after hle (le_refl _)]
      | none =>
        simp [hc, hb, hafter,
          classCountF_congr rest.length (rest.length + 1) rest (by omega) (by omega)]
    · simp [hc, hb,
        classCountF_congr rest.length (rest.length + 1) rest (by omega) (by omega)]

theorem elemCountF_congr :
    ∀ (f1 : ℕ) (f2 : ℕ) (l : List Char), l.length ≤ f1 → l.length ≤ f2 →
      elemCountF f1 l = elemCountF f2 l := by
  intro f1
  induction f1 with
  | zero =>
    intro f2 l h1 _
    have : l = [] := List.length_eq_zero.1 (Nat.le_zero.1 h1)
    subst this
    cases f2 <;> simp [elemCountF]
  | succ f ih =>
    intro f2 l h1 h2
    match l with
    | [] => cases f2 <;> simp [elemCountF]
    | [c] =>
      match f2 with
      | 0 => simp at h2
      | f2' + 1 => simp [elemCountF]
    | c :: c2 :: rest2 =>
      match f2 with
      | 0 => simp at h2
      | f2' + 1 =>
        simp only [List.length_cons, Nat.succ_le_succ_iff] at h1 h2
        have hd : ((c2 :: rest2).dropWhile isIdentChar).length ≤ rest2.length + 1 := by
          have := dropWhile_length_le isIdentChar (c2 :: rest2)
          simpa using this
        have hd2 : (rest2.dropWhile isIdentChar).length ≤ rest2.length :=
          dropWhile_length_le _ _
        simp only [elemCountF]
        by_cases hc : isIdentChar c
        · simp only [if_pos hc]
          exact congrArg (1 + ·)
            (ih f2' ((c2 :: rest2).dropWhile isIdentChar) (by omega) (by omega))
        · simp only [if_neg hc]
          by_cases hcl : c = ':' ∧ c2 = ':' ∧ ¬(rest2.takeWhile isIdentChar).isEmpty
          · simp only [if_pos hcl]
            exact congrArg (1 + ·)
              (ih f2' (rest2.dropWhile isIdentChar) (by omega) (by omega))
          · simp only [if_neg hcl]
            exact ih f2' (c2 :: rest2) (by simp only [List.length_cons]; omega)
              (by simp only [List.length_cons]; omega)

theorem elemCount_nil : elemCount [] = 0 := rfl

theorem elemCount_one (c : Char) : elemCount [c] = if isIdentChar c then 1 else 0 := rfl

theorem elemCount_two (c c2 : Char) (rest2 : List Char) :
    elemCount (c :: c2 :: rest2) =
      if isIdentChar c then 1 + elemCount ((c2 :: rest2).dropWhile isIdentChar)
      else if c = ':' ∧ c2 = ':' ∧ ¬(rest2.takeWhile isIdentChar).isEmpty then
        1 + elemCount (rest2.dropWhile isIdentChar)
      else elemCount (c2 :: rest2) := by
  have hd : ((c2 :: rest2).dropWhile isIdentChar).length ≤ rest2.length + 1 := by
    have := dropWhile_length_le isIdentChar (c2 :: rest2)
    simpa using this
  have hd2 : (rest2.dropWhile isIdentChar).length ≤ rest2.length :=
    dropWhile_length_le _ _
  simp only [elemCount, List.length_cons, elemCountF]
  by_cases hc : isIdentChar c
  · simp only [if_pos hc]
    exact congrArg (1 + ·)
      (elemCountF_congr (rest2.length + 1) ((c2 :: rest2).dropWhile isIdentChar).length
        ((c2 :: rest2).dropWhile isIdentChar) (by omega) (le_refl _))
  · simp only [if_neg hc]
    by_cases hcl : c = ':' ∧ c2 = ':' ∧ ¬(rest2.takeWhile isIdentChar).isEmpty
    · simp only [if_pos hcl]
      exact congrArg (1 + ·)
        (elemCountF_congr (rest2.length + 1) (rest2.dropWhile isIdentChar).length
          (rest2.dropWhile isIdentChar) (by omega) (le_refl _))
    · simp only [if_neg hcl]

theorem transformCharsF_congr :
    ∀ (f1 : ℕ) (f2 : ℕ) (R : Registry) (l : List Char), l.length ≤ f1 → l.length ≤ f2 →
      transformCharsF f1 R l = transformCharsF f2 R l := by
  intro f1
  induction f1 with
  | zero =>
    intro f2 R l h1 _
    have : l = [] := List.length_eq_zero.1 (Nat.le_zero.1 h1)
    subst this
    cases f2 <;> simp [transformCharsF]
  | succ f ih =>
    intro f2 R l h1 h2
    cases l with
    | nil => cases f2 <;> simp [transformCharsF]
    | cons c rest =>
      cases f2 with
      | zero => simp at h2
      | succ f2' =>
        simp only [List.length_cons, Nat.succ_le_succ_iff] at h1 h2
        have hd : (rest.dropWhile isIdentChar).length ≤ rest.length :=
          dropWhile_length_le _ _
        simp only [transformCharsF]
        by_cases hc : c = '.'
        · by_cases he : (rest.takeWhile isIdentChar).isEmpty
          · simp [hc, he, ih f2' R rest h1 h2]
          · simp [hc, he, ih f2' _ (rest.dropWhile isIdentChar) (by omega) (by omega)]
        · simp [hc, ih f2' R rest h1 h2]

theorem transformChars_nil (R : Registry) : transformChars R [] = (R, []) := rfl

theorem transformChars_cons (R : Registry) (c : Char) (rest : List Char) :
    transformChars R (c :: rest) =
      if c = '.' then
        if (rest.takeWhile isIdentChar).isEmpty then
          let p := transformChars R rest
          (p.1, '.' :: p.2)
        else
          let name := String.mk (rest.takeWhile isIdentChar)
          let R1 := if hasGeneratedClassName R name then R else (generateClassName R name).1
          let rep := match getGeneratedClassName R1 name with
            | some g => g.data
            | none => rest.takeWhile isIdentChar
          let p := transformChars R1 (rest.dropWhile isIdentChar)
          (p.1, '.' :: (rep ++ p.2))
      else
        let p := transformChars R rest
        (p.1, c :: p.2) := by
  simp only [transformChars, List.length_cons, transformCharsF]
  by_cases hc : c = '.'
  · by_cases he : (rest.takeWhile isIdentChar).isEmpty
    · simp [hc, he,
        transformCharsF_congr rest.length (rest.length + 1) R rest (by omega) (by omega)]
    · simp [hc, he,
        transformCharsF_congr rest.length (rest.dropWhile isIdentChar).length _
          (rest.dropWhile isIdentChar) (dropWhile_length_le _ _) (le_refl _)]
  · simp [hc,
      transformCharsF_congr rest.length (rest.length + 1) R rest (by omega) (by omega)]

theorem lookup_eq_none_iff (m : List (String × String)) (k : String) :
    m.lookup k = none ↔ k ∉ keysOf m := by
  induction m with
  | nil => simp [keysOf]
  | cons p t ih =>
    cases p with
    | mk k' v' =>
      by_cases hk : k = k'
      · subst hk
        simp [List.lookup, keysOf]
      · simp only [List.lookup, keysOf, List.map_cons, List.mem_cons]
        have : (k == k') = false := by simpa using hk
        simp [this, hk, ih, keysOf]

theorem lookup_mem {m : List (String × String)} {k v : String}
    (h : m.lookup k = some v) : (k, v) ∈ m := by
  induction m with
  | nil => simp [List.lookup] at h
  | cons p t ih =>
    cases p with
    | mk k' v' =>
      by_cases hk : k = k'
      · subst hk
        simp [List.lookup] at h
        simp [h]
      · have hbeq : (k == k') = false := by simpa using hk
        simp only [List.lookup, hbeq] at h
        exact List.mem_cons_of_mem _ (ih h)

theorem digitVal_digitChar : ∀ d < 10, digitVal (digitChar d) = d := by decide

theorem ofDigitsRev_digitsRevFuel :
    ∀ (fuel n : ℕ), n ≤ fuel → ofDigitsRev (digitsRevFuel fuel n) = n := by
  intro fuel
  induction fuel with
  | zero =>
    intro n h
    have : n = 0 := Nat.le_zero.1 h
    subst this
    simp [digitsRevFuel, ofDigitsRev]
  | succ f ih =>
    intro n h
    by_cases h0 : n = 0
    · simp [digitsRevFuel, h0, ofDigitsRev]
    · have hlt : n / 10 < n := Nat.div_lt_self (Nat.pos_of_ne_zero h0) (by norm_num)
      simp only [digitsRevFuel, if_neg h0, ofDigitsRev]
      rw [digitVal_digitChar _ (Nat.mod_lt _ (by norm_num)), ih (n / 10) (by omega)]
      omega

theorem natToStr_data_inj {n m : ℕ} (h : (natToStr n).data = (natToStr m).data) : n = m := by
  have key : ∀ k, ofDigitsRev (natToStr k).data.reverse = k := by
    intro k
    by_cases hk : k = 0
    · subst hk
      decide
    · simp only [natToStr, if_neg hk, String.mk]
      rw [List.reverse_reverse]
      exact ofDigitsRev_digitsRevFuel (k + 1) k (by omega)
  have := key n
  rw [h, key m] at this
  omega

theorem natToStr_data_ne_nil (n : ℕ) : (natToStr n).data ≠ [] := by
  by_cases hn : n = 0
  · subst hn
    decide
  · simp only [natToStr, if_neg hn, String.mk]
    intro hcon
    have : digitsRevFuel (n + 1) n = [] := by
      have := congrArg List.reverse hcon
      simpa using this
    simp [digitsRevFuel, hn] at this

theorem candidate_inj (g : String) : ∀ {n m : ℕ}, candidate g n = candidate g m → n = m := by
  have hdata : ∀ (a b : String), a = b → a.data = b.data := fun a b h => by rw [h]
  intro n m h
  by_cases hn : n = 0 <;> by_cases hm : m = 0
  · omega
  · exfalso
    simp only [candidate, if_pos hn, if_neg hm] at h
    have := hdata _ _ h
    simp only [String.data_append] at this
    have hlen := congrArg List.length this
    simp only [List.length_append, List.length_singleton] at hlen
    omega
  · exfalso
    simp only [candidate, if_neg hn, if_pos hm] at h
    have := hdata _ _ h
    simp only [String.data_append] at this
    have hlen := congrArg List.length this
    simp only [List.length_append, List.length_singleton] at hlen
    omega
  · simp only [candidate, if_neg hn, if_neg hm] at h
    have := hdata _ _ h
    simp only [String.data_append] at this
    have := List.append_cancel_left this
    exact natToStr_data_inj this

theorem exists_fresh (keys : List String) (g : String) :
    ∃ j, j ≤ keys.length ∧ candidate g j ∉ keys := by
  by_contra hcon
  push_neg at hcon
  have hsub : (Finset.range (keys.length + 1)).image (candidate g) ⊆ keys.toFinset := by
    intro x hx
    simp only [Finset.mem_image, Finset.mem_range] at hx
    obtain ⟨j, hj, rfl⟩ := hx
    exact List.mem_toFinset.2 (hcon j (by omega))
  have hcard : ((Finset.range (keys.length + 1)).image (candidate g)).card = keys.length + 1 := by
    rw [Finset.card_image_of_injective _ (fun a b => candidate_inj g), Finset.card_range]
  have h1 := Finset.card_le_card hsub
  have h2 := keys.toFinset_card_le
  omega

theorem findFresh_not_mem_of_exists (keys : List String) (g : String) :
    ∀ (fuel k : ℕ), (∃ j, j ≤ fuel ∧ candidate g (k + j) ∉ keys) →
      findFresh keys g fuel k ∉ keys := by
  intro fuel
  induction fuel with
  | zero =>
    intro k hj
    obtain ⟨j, hj0, hj1⟩ := hj
    have : j = 0 := Nat.le_zero.1 hj0
    subst this
    simpa [findFresh] using hj1
  | succ f ih =>
    intro k hj
    by_cases hmem : candidate g k ∈ keys
    · simp only [findFresh, if_pos hmem]
      obtain ⟨j, hj0, hj1⟩ := hj
      have hj00 : j ≠ 0 := by
        intro hz
        subst hz
        simp at hj1
        exact hj1 hmem
      obtain ⟨j', rfl⟩ := Nat.exists_eq_succ_of_ne_zero hj00
      exact ih (k + 1) ⟨j', by omega, by
        have : k + 1 + j' = k + (j' + 1) := by omega
        rw [this]
        exact hj1⟩
    · simpa [findFresh, if_neg hmem] using hmem

theorem findFresh_not_mem (keys : List String) (g : String) :
    findFresh keys g (keys.length + 1) 0 ∉ keys := by
  obtain ⟨j, hj0, hj1⟩ := exists_fresh keys g
  exact findFresh_not_mem_of_exists keys g (keys.length + 1) 0
    ⟨j, by omega, by simpa using hj1⟩

theorem findFresh_is_candidate (keys : List String) (g : String) :
    ∀ (fuel k : ℕ), ∃ j, findFresh keys g fuel k = candidate g j := by
  intro fuel
  induction fuel with
  | zero => intro k; exact ⟨k, rfl⟩
  | succ f ih =>
    intro k
    by_cases hmem : candidate g k ∈ keys
    · simp only [findFresh, if_pos hmem]
      exact ih (k + 1)
    · exact ⟨k, by simp [findFresh, if_neg hmem]⟩

theorem str_eq_empty_iff (s : String) : s = "" ↔ s.data = [] := by
  constructor
  · intro h
    subst h
    rfl
  · intro h
    cases s with
    | mk l => cases h; rfl

theorem append_ne_empty_right (a b : String) (h : b ≠ "") : a ++ b ≠ "" := by
  intro hcon
  apply h
  rw [str_eq_empty_iff] at hcon ⊢
  rw [String.data_append] at hcon
  exact (List.append_eq_nil.1 hcon).2

theorem validClassIdent_ne_empty {s : String} (h : validClassIdent s = true) : s ≠ "" := by
  intro hcon
  subst hcon
  simp [validClassIdent] at h

theorem gen_lookup_self (R : Registry) (s : String) :
    ((generateClassName R s).1).classMap.lookup s = some (generateClassName R s).2 := by
  unfold generateClassName
  cases h : R.classMap.lookup s with
  | some g => simp [h]
  | none => simp [h, List.lookup_append, List.lookup]

theorem gen_fix (R : Registry) (s : String) :
    generateClassName (generateClassName R s).1 s =
      ((generateClassName R s).1, (generateClassName R s).2) := by
  have h := gen_lookup_self R s
  conv_lhs => rw [generateClassName]
  rw [h]

/-- C6: registering the same original name twice returns the same generated
name both times and leaves the registry untouched the second time; any
number of repeated registrations equals a single one, and a single
registration grows the class map by at most one entry. -/
theorem generateClassName_idempotent (R : Registry) (s : String) (n : ℕ) :
    (generateClassName (generateClassName R s).1 s).2 = (generateClassName R s).2 ∧
    (generateClassName (generateClassName R s).1 s).1 = (generateClassName R s).1 ∧
    genIter R s (n + 1) = (generateClassName R s).1 ∧
    (generateClassName R s).1.classMap.length ≤ R.classMap.length + 1 := by
  refine ⟨by rw [gen_fix], by rw [gen_fix], ?_, ?_⟩
  · induction n with
    | zero => rfl
    | succ m ihm =>
      show (generateClassName (genIter R s (m + 1)) s).1 = _
      rw [ihm, gen_fix]
  · unfold generateClassName
    cases h : R.classMap.lookup s with
    | some g => simp
    | none => simp

theorem inv_mkRegistry (p : String) : RegistryInv (mkRegistry p) := by
  refine ⟨?_, ?_, ?_, ?_, ?_⟩ <;> simp [mkRegistry, keysOf]

theorem inv_reset (R : Registry) : RegistryInv (resetRegistry R) := by
  refine ⟨?_, ?_, ?_, ?_, ?_⟩ <;> simp [resetRegistry, keysOf]

theorem inv_gen {R : Registry} (s : String) (hInv : RegistryInv R) :
    RegistryInv (generateClassName R s).1 := by
  obtain ⟨h1, h2, h3, h4, h5⟩ := hInv
  unfold generateClassName
  cases hnone : R.classMap.lookup s with
  | some g => exact ⟨h1, h2, h3, h4, h5⟩
  | none =>
    simp only
    set base :=
      if validClassIdent s then R.pfx ++ s
      else R.pfx ++ "class-" ++ natToStr R.counter with hbase
    set u := findFresh (keysOf R.reverseMap) base ((keysOf R.reverseMap).length + 1) 0 with hu
    have hufresh : u ∉ keysOf R.reverseMap := findFresh_not_mem _ _
    have hsnot : s ∉ keysOf R.classMap := (lookup_eq_none_iff _ _).1 hnone
    have hbne : base ≠ "" := by
      rw [hbase]
      by_cases hv : validClassIdent s
      · simp only [if_pos hv]
        exact append_ne_empty_right _ _ (validClassIdent_ne_empty hv)
      · simp only [if_neg hv]
        refine append_ne_empty_right _ _ ?_
        intro hcon
        have := congrArg String.data hcon
        exact natToStr_data_ne_nil R.counter (by simpa using this)
    have hune : u ≠ "" := by
      obtain ⟨j, hj⟩ := findFresh_is_candidate (keysOf R.reverseMap) base
        ((keysOf R.reverseMap).length + 1) 0
      rw [hu, hj, candidate]
      by_cases hj0 : j = 0
      · simpa [hj0] using hbne
      · simp only [if_neg hj0]
        refine append_ne_empty_right _ _ ?_
        intro hcon
        have := congrArg String.data hcon
        exact natToStr_data_ne_nil j (by simpa using this)
    refine ⟨?_, ?_, ?_, ?_, ?_⟩
    · simp only [keysOf, List.map_append, List.map_cons, List.map_nil]
      rw [List.nodup_append]
      exact ⟨h1, List.nodup_singleton _, by simpa [keysOf] using hsnot⟩
    · simp only [keysOf, List.map_append, List.map_cons, List.map_nil]
      rw [List.nodup_append]
      exact ⟨h2, List.nodup_singleton _, by simpa [keysOf] using hufresh⟩
    · intro p hp
      rcases List.mem_append.1 hp with hmem | hmem
      · rw [List.lookup_append, h3 p hmem]
        rfl
      · simp only [List.mem_singleton] at hmem
        subst hmem
        rw [List.lookup_append, (lookup_eq_none_iff _ _).2 hufresh]
        simp [List.lookup]
    · intro q hq
      rcases List.mem_append.1 hq with hmem | hmem
      · rw [List.lookup_append, h4 q hmem]
        rfl
      · simp only [List.mem_singleton] at hmem
        subst hmem
        rw [List.lookup_append, hnone]
        simp [List.lookup]
    · intro p hp
      rcases List.mem_append.1 hp with hmem | hmem
      · exact h5 p hmem
      · simp only [List.mem_singleton] at hmem
        subst hmem
        exact hune

theorem inv_transformF :
    ∀ (fuel : ℕ) (R : Registry) (l : List Char), RegistryInv R →
      RegistryInv (transformCharsF fuel R l).1 := by
  intro fuel
  induction fuel with
  | zero => intro R l h; simpa [transformCharsF] using h
  | succ f ih =>
    intro R l h
    cases l with
    | nil => simpa [transformCharsF] using h
    | cons c rest =>
      simp only [transformCharsF]
      by_cases hc : c = '.'
      · by_cases he : (rest.takeWhile isIdentChar).isEmpty
        · simp only [if_pos hc, if_pos he]
          exact ih R rest h
        · simp only [if_pos hc, if_neg he]
          have hR1 : RegistryInv (if hasGeneratedClassName R (String.mk (rest.takeWhile isIdentChar)) then R
              else (generateClassName R (String.mk (rest.takeWhile isIdentChar))).1) := by
            by_cases hhas : hasGeneratedClassName R (String.mk (rest.takeWhile isIdentChar))
            · simpa [hhas] using h
            · simpa [hhas] using inv_gen _ h
          exact ih _ _ hR1
      · simp only [if_neg hc]
        exact ih R rest h

/-- C5 amended: the bijection invariant holds in the fresh registry, is
preserved by generateClassName, transformSelector and reset, and for every
registered nonempty original name the lookup round trip returns exactly
that name; for the empty string the generated name lookup succeeds but the
reverse lookup reports the null sentinel because of the falsy coalescing in
getOriginalClassName. -/
theorem registry_bijection_invariant :
    (∀ p, RegistryInv (mkRegistry p)) ∧
    (∀ R s, RegistryInv R → RegistryInv (generateClassName R s).1) ∧
    (∀ R t, RegistryInv R → RegistryInv (transformSelector R t).1) ∧
    (∀ R, RegistryInv R → RegistryInv (resetRegistry R)) ∧
    (∀ R s g, RegistryInv R → R.classMap.lookup s = some g → s ≠ "" →
      getGeneratedClassName R s = some g ∧ getOriginalClassName R g = some s) := by
  refine ⟨inv_mkRegistry, fun R s h => inv_gen s h,
    fun R t h => inv_transformF _ _ _ h, fun R _ => inv_reset R, ?_⟩
  intro R s g hInv hlook hne
  obtain ⟨h1, h2, h3, h4, h5⟩ := hInv
  have hmem := lookup_mem hlook
  have hgne : g ≠ "" := h5 (s, g) hmem
  constructor
  · simp [getGeneratedClassName, hlook, hgne]
  · have := h3 (s, g) hmem
    simp [getOriginalClassName, this, hne]

/-- Witness for the amended C5 theorem at a concrete registry. -/
theorem registry_bijection_invariant_witness :
    RegistryInv (generateClassName (mkRegistry "wf-") "container").1 ∧
    getGeneratedClassName (generateClassName (mkRegistry "wf-") "container").1 "container" =
      some "wf-container" ∧
    getOriginalClassName (generateClassName (mkRegistry "wf-") "container").1 "wf-container" =
      some "container" := by
  refine ⟨registry_bijection_invariant.2.1 (mkRegistry "wf-") "container" (by decide), ?_, ?_⟩
  · exact (registry_bijection_invariant.2.2.2.2
      (generateClassName (mkRegistry "wf-") "container").1 "container" "wf-container"
      (by decide) (by decide) (by decide)).1
  · exact (registry_bijection_invariant.2.2.2.2
      (generateClassName (mkRegistry "wf-") "container").1 "container" "wf-container"
      (by decide) (by decide) (by decide)).2

/-- C5 counterexample: after registering the empty string, the forward
lookup returns its generated name but the reverse lookup returns the null
sentinel instead of the registered empty original, so the round trip of the
claim fails for the registered string s equal to the empty string. -/
theorem registry_roundtrip_empty_counterexample :
    (generateClassName (mkRegistry "wf-") "").1.classMap.lookup "" = some "wf-class-0" ∧
    getGeneratedClassName (generateClassName (mkRegistry "wf-") "").1 "" = some "wf-class-0" ∧
    getOriginalClassName (generateClassName (mkRegistry "wf-") "").1 "wf-class-0" = none ∧
    (none : Option String) ≠ some "" := by
  refine ⟨by decide, by decide, by decide, by decide⟩

/-- C1: evaluation at the failing input.  Rewriting the selector .a through
a fresh registry with prefix wf- yields .wf-a; feeding that output back
into transformSelector with the resulting registry yields .wf-wf-a, a
double prefixed selector, so rewriting already rewritten text is not safe:
the second pass treats the generated name as a fresh original and registers
it again. -/
theorem transformSelector_double_rewrite :
    (transformSelector (mkRegistry "wf-") ".a").2 = ".wf-a" ∧
    (transformSelector (transformSelector (mkRegistry "wf-") ".a").1
      (transformSelector (mkRegistry "wf-") ".a").2).2 = ".wf-wf-a" ∧
    (".wf-wf-a" : String) ≠ ".wf-a" := by
  refine ⟨by decide, by decide, by decide⟩

/-- C4: the specificity of the single id selector is strictly above that of
nine chained class tokens but not above that of ten chained class tokens:
the code computes 101 against 99 and 110. -/
theorem specificity_crossover :
    calculateSpecificity "#a" > calculateSpecificity ".a.b.c.d.e.f.g.h.i" ∧
    ¬ calculateSpecificity "#a" > calculateSpecificity ".a.b.c.d.e.f.g.h.i.j" := by
  refine ⟨by decide, by decide⟩

/-- C3 counterexample: a selector consisting of a single class token has
specificity 11, not 10, because the element level regex also matches the
identifier run inside the class token. -/
theorem specificity_single_class_counterexample :
    calculateSpecificity ".x" = 11 ∧ (11 : ℕ) ≠ 10 := by
  refine ⟨by decide, by decide⟩

theorem runsGo_true (l : List Char) :
    runsGo true l = runsGo false (l.dropWhile isIdentChar) := by
  induction l with
  | nil => simp [runsGo, List.dropWhile]
  | cons c t ih =>
    by_cases hc : isIdentChar c
    · simp [runsGo, hc, List.dropWhile_cons, ih]
    · simp [runsGo, hc, List.dropWhile_cons]

theorem takeWhile_not_empty_iff (p : Char → Bool) (l : List Char) :
    ¬(l.takeWhile p).isEmpty ↔ ∃ c t, l = c :: t ∧ p c := by
  cases l with
  | nil => simp [List.takeWhile]
  | cons c t =>
    rw [List.takeWhile_cons]
    by_cases hc : p c
    · simp [hc]
    · simp [hc]

theorem runsGo_false_head_ident (c : Char) (t : List Char) (hc : isIdentChar c = true) :
    runsGo false (c :: t) = 1 + runsGo false ((c :: t).dropWhile isIdentChar) := by
  simp [runsGo, hc, List.dropWhile_cons, runsGo_true]

theorem elemCount_eq_runsCount_bounded :
    ∀ (n : ℕ) (l : List Char), l.length ≤ n → elemCount l = runsCount l := by
  intro n
  induction n with
  | zero =>
    intro l h
    have : l = [] := List.length_eq_zero.1 (Nat.le_zero.1 h)
    subst this
    rfl
  | succ m ih =>
    intro l h
    match l with
    | [] => rfl
    | [c] =>
      rw [elemCount_one]
      simp [runsCount, runsGo]
    | c :: c2 :: rest2 =>
      simp only [List.length_cons, Nat.succ_le_succ_iff] at h
      rw [elemCount_two]
      by_cases hc : isIdentChar c
      · rw [if_pos hc]
        have hdl : ((c2 :: rest2).dropWhile isIdentChar).length ≤ m := by
          have := dropWhile_length_le isIdentChar (c2 :: rest2)
          simp only [List.length_cons] at this
          omega
        rw [ih _ hdl]
        show _ = runsGo false (c :: c2 :: rest2)
        rw [runsGo_false_head_ident c (c2 :: rest2) hc]
        simp [runsCount, List.dropWhile_cons, hc]
      · rw [if_neg hc]
        by_cases hcl : c = ':' ∧ c2 = ':' ∧ ¬(rest2.takeWhile isIdentChar).isEmpty
        · rw [if_pos hcl]
          obtain ⟨hc1, hc2, hne⟩ := hcl
          obtain ⟨d, t2, hdt, hd⟩ := (takeWhile_not_empty_iff isIdentChar rest2).1 hne
          have hdl : (rest2.dropWhile isIdentChar).length ≤ m := by
            have := dropWhile_length_le isIdentChar rest2
            omega
          rw [ih _ hdl]
          subst hc1
          subst hc2
          show _ = runsGo false (':' :: ':' :: rest2)
          have hns : isIdentChar ':' = false := by decide
          simp only [runsGo, hns, Bool.false_and, Bool.and_false, if_neg, reduceIte,
            Nat.zero_add]
          subst hdt
          rw [runsGo_false_head_ident d t2 hd]
          simp [runsCount, List.dropWhile_cons, hd]
        · rw [if_neg hcl]
          have : (c2 :: rest2).length ≤ m := by simp only [List.length_cons]; omega
          rw [ih _ this]
          show _ = runsGo false (c :: c2 :: rest2)
          simp [runsCount, runsGo, hc]

theorem elemCount_eq_runsCount (l : List Char) : elemCount l = runsCount l :=
  elemCount_eq_runsCount_bounded l.length l (le_refl _)

/-- C3 amended: the specificity is one hundred per id token plus ten per
class, attribute or pseudo class token plus one per maximal run of
identifier characters anywhere in the selector; the identifier runs include
the name characters inside id, class and pseudo tokens, so a single class
token such as .x scores 11 rather than 10. -/
theorem calculateSpecificity_formula (s : String) :
    calculateSpecificity s =
      100 * idCount s.data + 10 * classCount s.data + runsCount s.data ∧
    calculateSpecificity ".x" = 11 := by
  constructor
  · rw [calculateSpecificity, elemCount_eq_runsCount]
  · decide

/-- C2: evaluation of the conversion pipeline on the end to end scenario.
The generated name mapping comes out as the claim expects, but the resolved
style of the paragraph element is empty rather than color blue: the created
Webflow elements carry no classes field, and rule matching compares the
selector against the mapped element type paragraph instead of the tag name
p, so no rule matches any element. -/
theorem convert_scenario_evaluation :
    (convertRun "wf-" domC2 cssC2).classMap =
      [("container", "wf-container"), ("text", "wf-text")] ∧
    ((convertRun "wf-" domC2 cssC2).elements.find? (fun e => e.id = "webflow-el-2")).map
      (fun e => e.styles) = some [] ∧
    (some [] : Option (List (String × String))) ≠ some [("color", "blue")] := by
  refine ⟨by decide, by decide, by decide⟩

/-- C9 counterexample: a class attribute with a repeated token keeps the
duplicate: the parsed class list of a div with class attribute a b a is the
three element list, not the deduplicated two element list. -/
theorem parseElement_duplicate_classes_counterexample :
    (parseOne 0 (.mk "div" [("class", "a b a")] "" .nil)).2.classes = ["a", "b", "a"] ∧
    (["a", "b", "a"] : List String) ≠ ["a", "b"] := by
  refine ⟨by decide, by decide⟩

theorem splitWsAux_tokens :
    ∀ (l cur : List Char), (∀ c ∈ cur, ¬c.isWhitespace) →
      ∀ s ∈ splitWsAux l cur, s ≠ "" ∧ ∀ c ∈ s.data, ¬c.isWhitespace = true := by
  intro l
  induction l with
  | nil =>
    intro cur hcur s hs
    by_cases hc : cur.isEmpty
    · simp [splitWsAux, hc] at hs
    · simp only [splitWsAux, if_neg hc, List.mem_singleton] at hs
      subst hs
      constructor
      · intro hcon
        have h2 : cur.reverse = [] := (str_eq_empty_iff _).1 hcon
        rw [List.reverse_eq_nil_iff] at h2
        subst h2
        simp at hc
      · intro c hcmem
        exact hcur c (List.mem_reverse.1 hcmem)
  | cons c t ih =>
    intro cur hcur s hs
    by_cases hw : c.isWhitespace
    · by_cases hc : cur.isEmpty
      · simp only [splitWsAux, if_pos hw, if_pos hc] at hs
        exact ih [] (by simp) s hs
      · simp only [splitWsAux, if_pos hw, if_neg hc, List.mem_cons] at hs
        rcases hs with hs | hs
        · subst hs
          constructor
          · intro hcon
            have h2 : cur.reverse = [] := (str_eq_empty_iff _).1 hcon
            rw [List.reverse_eq_nil_iff] at h2
            subst h2
            simp at hc
          · intro d hdmem
            exact hcur d (List.mem_reverse.1 hdmem)
        · exact ih [] (by simp) s hs
    · simp only [splitWsAux, if_neg hw] at hs
      exact ih (c :: cur) (by
        intro d hd
        rcases List.mem_cons.1 hd with hd | hd
        · subst hd; exact hw
        · exact hcur d hd) s hs

theorem splitWsAux_mid :
    ∀ (l cur : List Char), cur ≠ [] →
      splitWsAux l cur =
        String.mk (cur.reverse ++ l.takeWhile (fun d => !d.isWhitespace)) ::
          splitWsAux (l.dropWhile (fun d => !d.isWhitespace)) [] := by
  intro l
  induction l with
  | nil =>
    intro cur hcur
    have hc : ¬cur.isEmpty := by simpa using hcur
    simp [splitWsAux, hc, List.takeWhile, List.dropWhile]
  | cons c t ih =>
    intro cur hcur
    have hc : ¬cur.isEmpty := by simpa using hcur
    by_cases hw : c.isWhitespace
    · have hnw : (!c.isWhitespace) = false := by simp [hw]
      simp only [splitWsAux, if_pos hw, if_neg hc, List.takeWhile_cons, hnw,
        List.dropWhile_cons]
      simp
    · have hnw : (!c.isWhitespace) = true := by simp [hw]
      simp only [splitWsAux, if_neg hw, List.takeWhile_cons, hnw, List.dropWhile_cons]
      simp only [if_true]
      rw [ih (c :: cur) (by simp)]
      simp

/-- C9 amended: the parsed class list of every element is the list of
whitespace separated tokens of the class attribute, in attribute order,
with empty tokens dropped but duplicates retained; every token is nonempty
and whitespace free, and the split follows the greedy maximal run
recurrence, so the attribute a b a yields the list a, b, a. -/
theorem parseElement_classes_amended :
    (∀ (idc : ℕ) (name dt : String) (attribs : List (String × String)) (ch : RawNodeList),
      (parseOne idc (.mk name attribs dt ch)).2.classes = classList (attribs.lookup "class")) ∧
    (∀ (l : List Char) (s : String), s ∈ splitWsAux l [] →
      s ≠ "" ∧ ∀ c ∈ s.data, ¬c.isWhitespace = true) ∧
    (∀ (c : Char) (t : List Char),
      splitWsAux (c :: t) [] =
        if c.isWhitespace then splitWsAux t []
        else String.mk ((c :: t).takeWhile (fun d => !d.isWhitespace)) ::
          splitWsAux ((c :: t).dropWhile (fun d => !d.isWhitespace)) []) ∧
    classList (some "a b a") = ["a", "b", "a"] := by
  refine ⟨?_, ?_, ?_, by decide⟩
  · intro idc name dt attribs ch
    simp [parseOne, Parsed.classes]
  · intro l s hs
    exact splitWsAux_tokens l [] (by simp) s hs
  · intro c t
    by_cases hw : c.isWhitespace
    · have hnw : (!c.isWhitespace) = false := by simp [hw]
      simp [splitWsAux, hw]
    · have hnw : (!c.isWhitespace) = true := by simp [hw]
      simp only [splitWsAux, if_neg hw, List.takeWhile_cons, hnw, List.dropWhile_cons]
      rw [splitWsAux_mid t [c] (by simp)]
      simp

/-- Witness for the amended C9 theorem: the token a of the attribute text
a b is a nonempty whitespace free token. -/
theorem parseElement_classes_amended_witness :
    ("a" : String) ≠ "" ∧ ∀ c ∈ ("a" : String).data, ¬c.isWhitespace = true := by
  exact parseElement_classes_amended.2.1 ("a b".data) "a" (by decide)

/-- C8: media query isolation.  Inserting a media block anywhere in the
stylesheet leaves the top level rule sequence unchanged, so a rule that
appears only inside a media block is never placed in the top level rules;
consequently the resolved top level style of every element is identical
with and without the media block. -/
theorem media_query_isolation :
    (∀ (pre post : List CssItem) (p : String) (rs : List CssRule),
      (parseCss (pre ++ [CssItem.atRule "media" p rs] ++ post)).styleRules =
        (parseCss (pre ++ post)).styleRules) ∧
    (∀ (pre post : List CssItem) (p : String) (rs : List CssRule) (R : Registry)
      (el : WebflowEl),
      resolvedTopStyle el
          (processCssClasses R (parseCss (pre ++ [CssItem.atRule "media" p rs] ++ post))).2.styleRules =
        resolvedTopStyle el (processCssClasses R (parseCss (pre ++ post))).2.styleRules) := by
  have hrules : ∀ (pre post : List CssItem) (p : String) (rs : List CssRule),
      (parseCss (pre ++ [CssItem.atRule "media" p rs] ++ post)).styleRules =
        (parseCss (pre ++ post)).styleRules := by
    intro pre post p rs
    simp [parseCss]
  refine ⟨hrules, ?_⟩
  intro pre post p rs R el
  have hps : ∀ (css : ParsedCss), (processCssClasses R css).2.styleRules =
      (processRules R css.styleRules).2 := fun css => rfl
  rw [hps, hps, hrules]

theorem le_foldr_max (l : List ℕ) (a : ℕ) (h : a ∈ l) : a ≤ l.foldr max 0 := by
  induction l with
  | nil => simp at h
  | cons b t ih =>
    rcases List.mem_cons.1 h with hab | hat
    · subst hab
      exact le_max_left _ _
    · exact le_trans (ih hat) (le_max_right _ _)

theorem freshAddr_not_mem (h : Heap) : freshAddr h ∉ h.map Prod.fst := by
  intro hmem
  have := le_foldr_max _ _ hmem
  simp only [freshAddr] at this
  omega

theorem natLookup_eq_none {m : Heap} {k : ℕ} (h : k ∉ m.map Prod.fst) :
    List.lookup k m = none := by
  induction m with
  | nil => rfl
  | cons p t ih =>
    simp only [List.map_cons, List.mem_cons] at h
    push_neg at h
    have hbeq : (k == p.1) = false := by simpa using h.1
    cases p with
    | mk a o =>
      simp only [List.lookup, hbeq]
      exact ih h.2

theorem heapGet_append_other (h : Heap) (e : ℕ × List (String × String)) (addr : ℕ)
    (hne : addr ≠ e.1) : heapGet (h ++ [e]) addr = heapGet h addr := by
  unfold heapGet
  rw [List.lookup_append]
  have : List.lookup addr [e] = none := by
    cases e with
    | mk a o =>
      have hbeq : (addr == a) = false := by simpa using hne
      simp [List.lookup, hbeq]
  rw [this]
  cases List.lookup addr h <;> rfl

theorem heapGet_append_self (h : Heap) (e : ℕ × List (String × String))
    (hfresh : e.1 ∉ h.map Prod.fst) : heapGet (h ++ [e]) e.1 = some e.2 := by
  unfold heapGet
  rw [List.lookup_append, natLookup_eq_none hfresh]
  cases e with
  | mk a o => simp [List.lookup]

theorem heapSet_other (h : Heap) (a b : ℕ) (k v : String) (hne : b ≠ a) :
    heapGet (heapSet h a k v) b = heapGet h b := by
  induction h with
  | nil => rfl
  | cons p t ih =>
    cases p with
    | mk x o =>
      simp only [heapSet, List.map_cons]
      by_cases hxa : x = a
      · subst hxa
        have hbeq : (b == x) = false := by simpa using hne
        simp only [if_pos rfl]
        simp only [heapGet, List.lookup, hbeq]
        simpa [heapSet, heapGet] using ih
      · simp only [if_neg hxa]
        by_cases hbx : b = x
        · subst hbx
          simp [heapGet, List.lookup]
        · have hbeq : (b == x) = false := by simpa using hbx
          simp only [heapGet, List.lookup, hbeq]
          simpa [heapSet, heapGet] using ih

/-- C10: getAllClassMappings builds its result by copying every class map
entry into a freshly allocated object: the returned address is distinct
from the class map object, reading the class map afterwards gives the same
content as before, any mutation of the returned snapshot leaves the class
map content unchanged, the snapshot content is the entry by entry copy of
the class map, and a second call with no intervening registration returns a
snapshot with the same content. -/
theorem getAllClassMappings_snapshot (h : Heap) (addr : ℕ)
    (hmem : addr ∈ h.map Prod.fst) :
    (getAllClassMappingsHeap h addr).2 ≠ addr ∧
    heapGet (getAllClassMappingsHeap h addr).1 addr = heapGet h addr ∧
    (∀ k v, heapGet (heapSet (getAllClassMappingsHeap h addr).1
        (getAllClassMappingsHeap h addr).2 k v) addr = heapGet h addr) ∧
    heapGet (getAllClassMappingsHeap h addr).1 (getAllClassMappingsHeap h addr).2 =
      some (((heapGet h addr).getD []).foldl (fun acc p => assocSet acc p.1 p.2) []) ∧
    heapGet (getAllClassMappingsHeap (getAllClassMappingsHeap h addr).1 addr).1
        (getAllClassMappingsHeap (getAllClassMappingsHeap h addr).1 addr).2 =
      heapGet (getAllClassMappingsHeap h addr).1 (getAllClassMappingsHeap h addr).2 := by
  have hfresh := freshAddr_not_mem h
  have hne : freshAddr h ≠ addr := fun hcon => hfresh (hcon ▸ hmem)
  have e1 : getAllClassMappingsHeap h addr =
      (h ++ [(freshAddr h,
        ((heapGet h addr).getD []).foldl (fun acc p => assocSet acc p.1 p.2) [])],
       freshAddr h) := rfl
  have hget1 : heapGet (getAllClassMappingsHeap h addr).1 addr = heapGet h addr := by
    rw [e1]
    exact heapGet_append_other h _ addr (fun hc => hne hc.symm)
  refine ⟨by rw [e1]; exact hne, hget1, ?_, ?_, ?_⟩
  · intro k v
    rw [e1]
    rw [heapSet_other _ _ _ k v (fun hc => hne hc.symm)]
    exact heapGet_append_other h _ addr (fun hc => hne hc.symm)
  · rw [e1]
    exact heapGet_append_self h _ hfresh
  · have hfresh2 := freshAddr_not_mem (getAllClassMappingsHeap h addr).1
    have e2 : getAllClassMappingsHeap (getAllClassMappingsHeap h addr).1 addr =
        ((getAllClassMappingsHeap h addr).1 ++ [(freshAddr (getAllClassMappingsHeap h addr).1,
          ((heapGet (getAllClassMappingsHeap h addr).1 addr).getD []).foldl
            (fun acc p => assocSet acc p.1 p.2) [])],
         freshAddr (getAllClassMappingsHeap h addr).1) := rfl
    rw [e2]
    rw [heapGet_append_self (getAllClassMappingsHeap h addr).1 _ hfresh2]
    rw [hget1]
    conv_rhs => rw [e1]
    rw [heapGet_append_self h _ hfresh]

/-- Witness for the C10 theorem at a one object heap. -/
theorem getAllClassMappings_snapshot_witness :
    (getAllClassMappingsHeap [(0, [("a", "wf-a")])] 0).2 ≠ 0 ∧
    heapGet (getAllClassMappingsHeap [(0, [("a", "wf-a")])] 0).1 0 =
      heapGet [(0, [("a", "wf-a")])] 0 ∧
    (∀ k v, heapGet (heapSet (getAllClassMappingsHeap [(0, [("a", "wf-a")])] 0).1
        (getAllClassMappingsHeap [(0, [("a", "wf-a")])] 0).2 k v) 0 =
      heapGet [(0, [("a", "wf-a")])] 0) ∧
    heapGet (getAllClassMappingsHeap [(0, [("a", "wf-a")])] 0).1
        (getAllClassMappingsHeap [(0, [("a", "wf-a")])] 0).2 =
      some (((heapGet [(0, [("a", "wf-a")])] 0).getD []).foldl
        (fun acc p => assocSet acc p.1 p.2) []) ∧
    heapGet (getAllClassMappingsHeap
        (getAllClassMappingsHeap [(0, [("a", "wf-a")])] 0).1 0).1
        (getAllClassMappingsHeap
          (getAllClassMappingsHeap [(0, [("a", "wf-a")])] 0).1 0).2 =
      heapGet (getAllClassMappingsHeap [(0, [("a", "wf-a")])] 0).1
        (getAllClassMappingsHeap [(0, [("a", "wf-a")])] 0).2 :=
  getAllClassMappings_snapshot [(0, [("a", "wf-a")])] 0 (by decide)

theorem takeWhile_all (p : Char → Bool) (l : List Char) :
    (l.takeWhile p).all p = true := by
  induction l with
  | nil => rfl
  | cons c t ih =>
    rw [List.takeWhile_cons]
    by_cases hc : p c
    · simp [hc, ih]
    · simp [hc]

theorem identHead_dropWhile (l : List Char) :
    identHeadB (l.dropWhile isIdentChar) = false := by
  induction l with
  | nil => rfl
  | cons c t ih =>
    rw [List.dropWhile_cons]
    by_cases hc : isIdentChar c
    · simp [hc, ih]
    · simp [hc, identHeadB]

theorem takeWhile_not_empty_iff_identHead (l : List Char) :
    ¬(l.takeWhile isIdentChar).isEmpty ↔ identHeadB l = true := by
  cases l with
  | nil => simp [List.takeWhile, identHeadB]
  | cons c t =>
    rw [List.takeWhile_cons]
    by_cases hc : isIdentChar c
    · simp [hc, identHeadB]
    · simp [hc, identHeadB]

theorem takeWhile_append_run (run s : List Char) (hall : run.all isIdentChar = true)
    (hs : identHeadB s = false) :
    (run ++ s).takeWhile isIdentChar = run ∧ (run ++ s).dropWhile isIdentChar = s := by
  induction run with
  | nil =>
    simp only [List.nil_append]
    cases s with
    | nil => simp [List.takeWhile, List.dropWhile]
    | cons c t =>
      have hc : isIdentChar c = false := hs
      simp [List.takeWhile_cons, List.dropWhile_cons, hc]
  | cons r rest ih =>
    simp only [List.all_cons, Bool.and_eq_true] at hall
    have := ih hall.2
    simp [List.takeWhile_cons, List.dropWhile_cons, hall.1, this.1, this.2]

theorem Rw_heads {s t : List Char} (h : Rw s t) :
    (s = [] ∧ t = []) ∨ ∃ c s' t', s = c :: s' ∧ t = c :: t' := by
  cases h with
  | nil => exact Or.inl ⟨rfl, rfl⟩
  | copy c hc h => exact Or.inr ⟨c, _, _, rfl, rfl⟩
  | seg hr hri hg hgi hs h => exact Or.inr ⟨'.', _, _, rfl, rfl⟩

theorem Rw_identHead {s t : List Char} (h : Rw s t) : identHeadB s = identHeadB t := by
  rcases Rw_heads h with ⟨hs, ht⟩ | ⟨c, s', t', hs, ht⟩ <;> subst hs <;> subst ht <;> rfl

theorem Rw_run_copy :
    ∀ (run : List Char) {s t2 : List Char}, run.all isIdentChar = true →
      Rw (run ++ s) t2 → ∃ t', t2 = run ++ t' ∧ Rw s t' := by
  intro run
  induction run with
  | nil => intro s t2 _ h; exact ⟨t2, rfl, h⟩
  | cons r rest ih =>
    intro s t2 hall h
    simp only [List.all_cons, Bool.and_eq_true] at hall
    rw [List.cons_append] at h
    generalize hu : rest ++ s = u at h
    cases h with
    | copy c hc h2 =>
      subst hu
      obtain ⟨t', ht', hrw⟩ := ih hall.2 h2
      exact ⟨t', by rw [ht', List.cons_append], hrw⟩
    | seg hr hri hg hgi hs h2 =>
      exfalso
      have hdot : isIdentChar '.' = false := by decide
      rw [hdot] at hall
      exact Bool.false_ne_true hall.1

theorem idCount_append_ident (run : List Char) :
    ∀ (s : List Char), run.all isIdentChar = true → idCount (run ++ s) = idCount s := by
  induction run with
  | nil => intro s _; rfl
  | cons r rest ih =>
    intro s hall
    simp only [List.all_cons, Bool.and_eq_true] at hall
    have hrne : r ≠ '#' := by
      intro he
      rw [he] at hall
      exact absurd hall.1 (by decide)
    rw [List.cons_append, idCount_cons, if_neg hrne]
    exact ih s hall.2

theorem classCount_append_ident (run : List Char) :
    ∀ (s : List Char), run.all isIdentChar = true → classCount (run ++ s) = classCount s := by
  induction run with
  | nil => intro s _; rfl
  | cons r rest ih =>
    intro s hall
    simp only [List.all_cons, Bool.and_eq_true] at hall
    have hr1 : ¬(r = '.' ∨ r = ':') := by
      intro he
      rcases he with he | he <;> rw [he] at hall <;> exact absurd hall.1 (by decide)
    have hr2 : r ≠ '[' := by
      intro he
      rw [he] at hall
      exact absurd hall.1 (by decide)
    rw [List.cons_append, classCount_cons, if_neg hr1, if_neg hr2]
    exact ih s hall.2

theorem idCount_drop_ident (l : List Char) :
    idCount l = idCount (l.dropWhile isIdentChar) := by
  conv_lhs => rw [← List.takeWhile_append_dropWhile (p := isIdentChar) (l := l)]
  exact idCount_append_ident _ _ (takeWhile_all _ _)

theorem classCount_drop_ident (l : List Char) :
    classCount l = classCount (l.dropWhile isIdentChar) := by
  conv_lhs => rw [← List.takeWhile_append_dropWhile (p := isIdentChar) (l := l)]
  exact classCount_append_ident _ _ (takeWhile_all _ _)

theorem goClose_length : ∀ {l t : List Char}, goClose l = some t → t.length < l.length := by
  intro l
  induction l with
  | nil => intro t ht; simp [goClose] at ht
  | cons d ds ih =>
    intro t ht
    by_cases hd : d = ']'
    · simp [goClose, hd] at ht
      subst ht
      simp
    · by_cases hn : d = '\n'
      · simp [goClose, hd, hn] at ht
      · simp only [goClose, if_neg hd, if_neg hn] at ht
        have := ih ht
        simp only [List.length_cons]
        omega

theorem findClose_length : ∀ {l t : List Char}, findClose l = some t → t.length < l.length := by
  intro l t ht
  cases l with
  | nil => simp [findClose] at ht
  | cons d ds =>
    simp only [findClose] at ht
    by_cases hn : d = '\n'
    · simp [hn] at ht
    · simp only [if_neg hn] at ht
      have := goClose_length ht
      simp only [List.length_cons]
      omega

theorem goClose_append_ident (run : List Char) :
    ∀ (s : List Char), run.all isIdentChar = true → goClose (run ++ s) = goClose s := by
  induction run with
  | nil => intro s _; rfl
  | cons r rest ih =>
    intro s hall
    simp only [List.all_cons, Bool.and_eq_true] at hall
    have hr1 : r ≠ ']' := by
      intro he
      rw [he] at hall
      exact absurd hall.1 (by decide)
    have hr2 : r ≠ '\n' := by
      intro he
      rw [he] at hall
      exact absurd hall.1 (by decide)
    rw [List.cons_append]
    simp only [goClose, if_neg hr1, if_neg hr2]
    exact ih s hall.2

theorem goClose_rw :
    ∀ (n : ℕ) {s t : List Char}, s.length ≤ n → Rw s t →
      (goClose s = none ∧ goClose t = none) ∨
      ∃ a a', goClose s = some a ∧ goClose t = some a' ∧ Rw a a' := by
  intro n
  induction n with
  | zero =>
    intro s t hlen h
    have : s = [] := List.length_eq_zero.1 (Nat.le_zero.1 hlen)
    subst this
    cases h
    exact Or.inl ⟨rfl, rfl⟩
  | succ m ih =>
    intro s t hlen h
    cases h with
    | nil => exact Or.inl ⟨rfl, rfl⟩
    | copy c hc h2 =>
      rename_i s1 t1
      simp only [List.length_cons] at hlen
      by_cases hcb : c = ']'
      · subst hcb
        exact Or.inr ⟨s1, t1, by simp [goClose], by simp [goClose], h2⟩
      · by_cases hcn : c = '\n'
        · subst hcn
          exact Or.inl ⟨by simp [goClose], by simp [goClose]⟩
        · simp only [goClose, if_neg hcb, if_neg hcn]
          exact ih (by omega) h2
    | seg hr hri hg hgi hs h2 =>
      rename_i run g s1 t1
      simp only [List.length_cons, List.length_append] at hlen
      have hdot1 : ('.' : Char) ≠ ']' := by decide
      have hdot2 : ('.' : Char) ≠ '\n' := by decide
      simp only [goClose, if_neg hdot1, if_neg hdot2]
      rw [goClose_append_ident run s1 hri, goClose_append_ident g t1 hgi]
      have hrun : 1 ≤ run.length := by
        cases run with
        | nil => exact absurd rfl hr
        | cons a b => simp only [List.length_cons]; omega
      exact ih (by omega) h2

theorem findClose_rw {s t : List Char} (h : Rw s t) :
    (findClose s = none ∧ findClose t = none) ∨
    ∃ a a', findClose s = some a ∧ findClose t = some a' ∧ Rw a a' := by
  cases h with
  | nil => exact Or.inl ⟨rfl, rfl⟩
  | copy c hc h2 =>
    by_cases hcn : c = '\n'
    · subst hcn
      exact Or.inl ⟨by simp [findClose], by simp [findClose]⟩
    · simp only [findClose, if_neg hcn]
      exact goClose_rw _ (le_refl _) h2
  | seg hr hri hg hgi hs h2 =>
    rename_i run g s1 t1
    have hdot : ('.' : Char) ≠ '\n' := by decide
    simp only [findClose, if_neg hdot]
    rw [goClose_append_ident run s1 hri, goClose_append_ident g t1 hgi]
    exact goClose_rw _ (le_refl _) h2

theorem takeWhile_isEmpty_head (l : List Char) :
    (l.takeWhile isIdentChar).isEmpty = !identHeadB l := by
  cases l with
  | nil => rfl
  | cons c t =>
    rw [List.takeWhile_cons]
    by_cases hc : isIdentChar c
    · simp [hc, identHeadB]
    · simp [hc, identHeadB]

theorem takeWhile_isEmpty_congr {s1 t1 : List Char} (h : identHeadB s1 = identHeadB t1) :
    (s1.takeWhile isIdentChar).isEmpty = (t1.takeWhile isIdentChar).isEmpty := by
  rw [takeWhile_isEmpty_head, takeWhile_isEmpty_head, h]

theorem idCount_rw {s t : List Char} (h : Rw s t) : idCount s = idCount t := by
  induction h with
  | nil => rfl
  | copy c hc h2 ih =>
    rename_i s1 t1
    have hhead := Rw_identHead h2
    by_cases hcb : c = '#'
    · subst hcb
      rw [idCount_cons, idCount_cons, if_pos rfl, if_pos rfl]
      have hcong := takeWhile_isEmpty_congr hhead
      by_cases hne : (s1.takeWhile isIdentChar).isEmpty
      · rw [if_pos hne, if_pos (hcong ▸ hne)]
        exact ih
      · rw [if_neg hne, if_neg (fun hcon => hne (by rw [hcong]; exact hcon))]
        rw [← idCount_drop_ident, ← idCount_drop_ident]
        exact congrArg (1 + ·) ih
    · rw [idCount_cons, idCount_cons, if_neg hcb, if_neg hcb]
      exact ih
  | seg hr hri hg hgi hs h2 ih =>
    rename_i run g s1 t1
    have hdot : ('.' : Char) ≠ '#' := by decide
    rw [idCount_cons, idCount_cons, if_neg hdot, if_neg hdot]
    rw [idCount_append_ident run s1 hri, idCount_append_ident g t1 hgi]
    exact ih

theorem classCount_rw :
    ∀ (n : ℕ) {s t : List Char}, s.length ≤ n → Rw s t → classCount s = classCount t := by
  intro n
  induction n with
  | zero =>
    intro s t hlen h
    have : s = [] := List.length_eq_zero.1 (Nat.le_zero.1 hlen)
    subst this
    cases h
    rfl
  | succ m ih =>
    intro s t hlen h
    cases h with
    | nil => rfl
    | copy c hc h2 =>
      rename_i s1 t1
      simp only [List.length_cons] at hlen
      have hhead := Rw_identHead h2
      have hcong := takeWhile_isEmpty_congr hhead
      by_cases hdc : c = '.' ∨ c = ':'
      · rw [classCount_cons, classCount_cons, if_pos hdc, if_pos hdc]
        by_cases hne : (s1.takeWhile isIdentChar).isEmpty
        · rw [if_pos hne, if_pos (hcong ▸ hne)]
          exact ih (by omega) h2
        · rw [if_neg hne, if_neg (fun hcon => hne (by rw [hcong]; exact hcon))]
          rw [← classCount_drop_ident, ← classCount_drop_ident]
          exact congrArg (1 + ·) (ih (by omega) h2)
      · by_cases hbr : c = '['
        · subst hbr
          rw [classCount_cons, classCount_cons, if_neg hdc, if_neg hdc,
            if_pos rfl, if_pos rfl]
          rcases findClose_rw h2 with ⟨hn1, hn2⟩ | ⟨a, a', ha, ha', hrw⟩
          · rw [hn1, hn2]
            exact ih (by omega) h2
          · rw [ha, ha']
            have hal := findClose_length ha
            show 1 + classCount a = 1 + classCount a'
            exact congrArg (1 + ·) (ih (by omega) hrw)
        · rw [classCount_cons, classCount_cons, if_neg hdc, if_neg hdc,
            if_neg hbr, if_neg hbr]
          exact ih (by omega) h2
    | seg hr hri hg hgi hs h2 =>
      rename_i run g s1 t1
      simp only [List.length_cons, List.length_append] at hlen
      have hd : (('.' : Char) = '.' ∨ ('.' : Char) = ':') := Or.inl rfl
      rw [classCount_cons, classCount_cons, if_pos hd, if_pos hd]
      have h1 := takeWhile_append_run run s1 hri hs
      have hgt : identHeadB t1 = false := by rw [← Rw_identHead h2]; exact hs
      have h2t := takeWhile_append_run g t1 hgi hgt
      have hrune : ¬((run ++ s1).takeWhile isIdentChar).isEmpty = true := by
        rw [h1.1]
        simpa [List.isEmpty_iff] using hr
      have hgune : ¬((g ++ t1).takeWhile isIdentChar).isEmpty = true := by
        rw [h2t.1]
        simpa [List.isEmpty_iff] using hg
      rw [if_neg hrune, if_neg hgune, h1.2, h2t.2]
      have hrun1 : 1 ≤ run.length := by
        cases run with
        | nil => exact absurd rfl hr
        | cons a b => simp only [List.length_cons]; omega
      exact congrArg (1 + ·) (ih (by omega) h2)

theorem runsGo_append_run (run s : List Char) (hr : run ≠ [])
    (hall : run.all isIdentChar = true) (hs : identHeadB s = false) :
    runsGo false (run ++ s) = 1 + runsGo false s := by
  cases run with
  | nil => exact absurd rfl hr
  | cons r rest =>
    simp only [List.all_cons, Bool.and_eq_true] at hall
    rw [List.cons_append]
    show (if isIdentChar r && !false then 1 else 0) + runsGo (isIdentChar r) (rest ++ s) = _
    rw [hall.1]
    show 1 + runsGo true (rest ++ s) = _
    rw [runsGo_true, (takeWhile_append_run rest s hall.2 hs).2]

theorem runsGo_rw {s t : List Char} (h : Rw s t) : ∀ b, runsGo b s = runsGo b t := by
  induction h with
  | nil => intro b; rfl
  | copy c hc h2 ih =>
    intro b
    show (if isIdentChar c && !b then 1 else 0) + runsGo (isIdentChar c) _ = _
    rw [ih (isIdentChar c)]
    rfl
  | seg hr hri hg hgi hs h2 ih =>
    rename_i run g s1 t1
    intro b
    have hdot : isIdentChar '.' = false := by decide
    show (if isIdentChar '.' && !b then 1 else 0) + runsGo (isIdentChar '.') (run ++ s1) = _
    rw [hdot]
    have hgt : identHeadB t1 = false := by rw [← Rw_identHead h2]; exact hs
    show 0 + runsGo false (run ++ s1) = 0 + runsGo false (g ++ t1)
    rw [runsGo_append_run run s1 hr hri hs, runsGo_append_run g t1 hg hgi hgt, ih false]

theorem elemCount_rw {s t : List Char} (h : Rw s t) : elemCount s = elemCount t := by
  rw [elemCount_eq_runsCount, elemCount_eq_runsCount]
  exact runsGo_rw h false

theorem digitChar_ident : ∀ d, isIdentChar (digitChar d) = true := by
  intro d
  match d with
  | 0 | 1 | 2 | 3 | 4 | 5 | 6 | 7 | 8 => decide
  | n + 9 =>
    show isIdentChar '9' = true
    decide

theorem digitsRevFuel_all_ident : ∀ (fuel n : ℕ),
    (digitsRevFuel fuel n).all isIdentChar = true := by
  intro fuel
  induction fuel with
  | zero => intro n; rfl
  | succ f ih =>
    intro n
    by_cases h0 : n = 0
    · simp [digitsRevFuel, h0]
    · simp [digitsRevFuel, h0, digitChar_ident, ih]

theorem all_reverse_ident (l : List Char) :
    l.reverse.all isIdentChar = l.all isIdentChar := by
  simp [List.all_eq_true]

theorem natToStr_all_ident (n : ℕ) : (natToStr n).data.all isIdentChar = true := by
  by_cases h0 : n = 0
  · subst h0
    decide
  · simp only [natToStr, if_neg h0, String.mk]
    rw [all_reverse_ident]
    exact digitsRevFuel_all_ident _ _

theorem strAll_append (a b : String) :
    (a ++ b).data.all isIdentChar = ((a.data.all isIdentChar) && (b.data.all isIdentChar)) := by
  rw [String.data_append, List.all_append]

theorem identStart_ident {c : Char} (h : isIdentStart c = true) : isIdentChar c = true := by
  unfold isIdentStart at h
  unfold isIdentChar
  rcases Bool.or_eq_true_iff.1 h with h2 | h2
  · rcases Bool.or_eq_true_iff.1 h2 with h3 | h3
    · simp [h3]
    · simp [h3]
  · simp [h2]

theorem validClassIdent_all {s : String} (h : validClassIdent s = true) :
    s.data.all isIdentChar = true := by
  unfold validClassIdent at h
  cases hd : s.data with
  | nil => rw [hd] at h; exact absurd h (by simp)
  | cons c rest =>
    rw [hd] at h
    simp only [Bool.and_eq_true] at h
    rw [List.all_cons, identStart_ident h.1, h.2]
    rfl

theorem candidate_good {base : String} (hall : base.data.all isIdentChar = true)
    (hne : base ≠ "") (j : ℕ) :
    (candidate base j).data.all isIdentChar = true ∧ candidate base j ≠ "" := by
  unfold candidate
  by_cases hj : j = 0
  · simp only [if_pos hj]
    exact ⟨hall, hne⟩
  · simp only [if_neg hj]
    constructor
    · rw [strAll_append, strAll_append, hall, natToStr_all_ident]
      decide
    · refine append_ne_empty_right _ _ ?_
      intro hcon
      exact natToStr_data_ne_nil j ((str_eq_empty_iff _).1 hcon)

theorem gen_fresh_value_good {R : Registry} (hpfx : R.pfx.data.all isIdentChar = true)
    (s : String) (hnone : R.classMap.lookup s = none) :
    ((generateClassName R s).2).data.all isIdentChar = true ∧
    (generateClassName R s).2 ≠ "" := by
  unfold generateClassName
  rw [hnone]
  simp only
  set base :=
    if validClassIdent s then R.pfx ++ s
    else R.pfx ++ "class-" ++ natToStr R.counter with hbase
  have hbgood : base.data.all isIdentChar = true ∧ base ≠ "" := by
    rw [hbase]
    by_cases hv : validClassIdent s
    · simp only [if_pos hv]
      refine ⟨by rw [strAll_append, hpfx, validClassIdent_all hv]; rfl, ?_⟩
      exact append_ne_empty_right _ _ (validClassIdent_ne_empty hv)
    · simp only [if_neg hv]
      constructor
      · rw [strAll_append, strAll_append, hpfx, natToStr_all_ident]
        decide
      · refine append_ne_empty_right _ _ ?_
        intro hcon
        exact natToStr_data_ne_nil R.counter ((str_eq_empty_iff _).1 hcon)
  obtain ⟨j, hj⟩ := findFresh_is_candidate (keysOf R.reverseMap) base
    ((keysOf R.reverseMap).length + 1) 0
  rw [hj]
  exact candidate_good hbgood.1 hbgood.2 j

theorem gen_good {R : Registry} (s : String) (hG : GoodReg R) :
    GoodReg (generateClassName R s).1 := by
  obtain ⟨hpfx, hmap⟩ := hG
  cases hnone : R.classMap.lookup s with
  | some g =>
    unfold generateClassName
    rw [hnone]
    exact ⟨hpfx, hmap⟩
  | none =>
    have hval := gen_fresh_value_good hpfx s hnone
    unfold generateClassName at hval ⊢
    rw [hnone] at hval ⊢
    refine ⟨hpfx, ?_⟩
    intro p hp
    rcases List.mem_append.1 hp with hmem | hmem
    · exact hmap p hmem
    · simp only [List.mem_singleton] at hmem
      subst hmem
      intro _
      exact hval

theorem getGen_good {R1 : Registry} (hG : GoodReg R1) {name g : String}
    (hname : name.data.all isIdentChar = true ∧ name ≠ "")
    (hsome : getGeneratedClassName R1 name = some g) :
    g.data.all isIdentChar = true ∧ g ≠ "" := by
  unfold getGeneratedClassName at hsome
  cases hl : R1.classMap.lookup name with
  | none =>
    rw [hl] at hsome
    change (none : Option String) = some g at hsome
    cases hsome
  | some g' =>
    rw [hl] at hsome
    change (if g' = "" then none else some g') = some g at hsome
    by_cases hge : g' = ""
    · rw [if_pos hge] at hsome
      cases hsome
    · rw [if_neg hge] at hsome
      injection hsome with he
      subst he
      exact hG.2 (name, g') (lookup_mem hl) hname

theorem rep_good {R1 : Registry} (hG1 : GoodReg R1) (run : List Char)
    (hrne : run ≠ []) (hall : run.all isIdentChar = true) :
    (match getGeneratedClassName R1 (String.mk run) with
      | some g => g.data
      | none => run) ≠ [] ∧
    (match getGeneratedClassName R1 (String.mk run) with
      | some g => g.data
      | none => run).all isIdentChar = true := by
  cases hrep : getGeneratedClassName R1 (String.mk run) with
  | none =>
    simp only [hrep]
    exact ⟨hrne, hall⟩
  | some g =>
    have hg := getGen_good hG1 ⟨hall, fun hcon => hrne ((str_eq_empty_iff _).1 hcon)⟩ hrep
    simp only [hrep]
    refine ⟨?_, hg.1⟩
    intro hcon
    exact hg.2 ((str_eq_empty_iff _).2 hcon)

theorem transformF_rw :
    ∀ (fuel : ℕ) (R : Registry) (l : List Char), l.length ≤ fuel → GoodReg R →
      Rw l (transformCharsF fuel R l).2 := by
  intro fuel
  induction fuel with
  | zero =>
    intro R l hlen _
    have : l = [] := List.length_eq_zero.1 (Nat.le_zero.1 hlen)
    subst this
    exact Rw.nil
  | succ f ih =>
    intro R l hlen hG
    cases l with
    | nil => exact Rw.nil
    | cons c rest =>
      simp only [List.length_cons, Nat.succ_le_succ_iff] at hlen
      by_cases hc : c = '.'
      · subst hc
        by_cases he : (rest.takeWhile isIdentChar).isEmpty
        · have hih : identHeadB rest = false := by
            have hx := takeWhile_isEmpty_head rest
            rw [he] at hx
            cases hy : identHeadB rest
            · rfl
            · rw [hy] at hx
              exact absurd hx (by decide)
          have hcopy := Rw.copy '.'
            (fun hand => by rw [hih] at hand; exact Bool.false_ne_true hand.2)
            (ih R rest hlen hG)
          have hstep : transformCharsF (f + 1) R ('.' :: rest) =
              ((transformCharsF f R rest).1, '.' :: (transformCharsF f R rest).2) := by
            simp [transformCharsF, he]
          rw [hstep]
          exact hcopy
        · have hrne : rest.takeWhile isIdentChar ≠ [] := by
            intro hcon
            rw [hcon] at he
            exact he rfl
          have hall := takeWhile_all isIdentChar rest
          have hG1 : GoodReg (if hasGeneratedClassName R (String.mk (rest.takeWhile isIdentChar))
              then R else (generateClassName R (String.mk (rest.takeWhile isIdentChar))).1) := by
            by_cases hhas : hasGeneratedClassName R (String.mk (rest.takeWhile isIdentChar))
            · rw [if_pos hhas]
              exact hG
            · rw [if_neg hhas]
              exact gen_good _ hG
          have hrep := rep_good hG1 (rest.takeWhile isIdentChar) hrne hall
          have hseg := Rw.seg hrne hall hrep.1 hrep.2 (identHead_dropWhile rest)
            (ih _ (rest.dropWhile isIdentChar)
              (le_trans (dropWhile_length_le _ _) hlen) hG1)
          rw [List.takeWhile_append_dropWhile] at hseg
          have hstep : transformCharsF (f + 1) R ('.' :: rest) =
              ((transformCharsF f
                  (if hasGeneratedClassName R (String.mk (rest.takeWhile isIdentChar))
                   then R else (generateClassName R (String.mk (rest.takeWhile isIdentChar))).1)
                  (rest.dropWhile isIdentChar)).1,
               '.' :: ((match getGeneratedClassName
                    (if hasGeneratedClassName R (String.mk (rest.takeWhile isIdentChar))
                     then R else (generateClassName R (String.mk (rest.takeWhile isIdentChar))).1)
                    (String.mk (rest.takeWhile isIdentChar)) with
                  | some g => g.data
                  | none => rest.takeWhile isIdentChar) ++
                (transformCharsF f
                  (if hasGeneratedClassName R (String.mk (rest.takeWhile isIdentChar))
                   then R else (generateClassName R (String.mk (rest.takeWhile isIdentChar))).1)
                  (rest.dropWhile isIdentChar)).2)) := by
            simp [transformCharsF, he]
          rw [hstep]
          exact hseg
      · have hstep : transformCharsF (f + 1) R (c :: rest) =
            ((transformCharsF f R rest).1, c :: (transformCharsF f R rest).2) := by
          simp [transformCharsF, hc]
        rw [hstep]
        exact Rw.copy c (fun hand => hc hand.1) (ih R rest hlen hG)

theorem good_transformF :
    ∀ (fuel : ℕ) (R : Registry) (l : List Char), GoodReg R →
      GoodReg (transformCharsF fuel R l).1 := by
  intro fuel
  induction fuel with
  | zero => intro R l h; simpa [transformCharsF] using h
  | succ f ih =>
    intro R l h
    cases l with
    | nil => simpa [transformCharsF] using h
    | cons c rest =>
      simp only [transformCharsF]
      by_cases hc : c = '.'
      · by_cases he : (rest.takeWhile isIdentChar).isEmpty
        · simp only [if_pos hc, if_pos he]
          exact ih R rest h
        · simp only [if_pos hc, if_neg he]
          have hG1 : GoodReg (if hasGeneratedClassName R (String.mk (rest.takeWhile isIdentChar))
              then R else (generateClassName R (String.mk (rest.takeWhile isIdentChar))).1) := by
            by_cases hhas : hasGeneratedClassName R (String.mk (rest.takeWhile isIdentChar))
            · rw [if_pos hhas]
              exact h
            · rw [if_neg hhas]
              exact gen_good _ h
          exact ih _ _ hG1
      · simp only [if_neg hc]
        exact ih R rest h

theorem good_transformSelector {R : Registry} (s : String) (hG : GoodReg R) :
    GoodReg (transformSelector R s).1 :=
  good_transformF _ _ _ hG

theorem calculateSpecificity_transform (R : Registry) (s : String) (hG : GoodReg R) :
    calculateSpecificity (transformSelector R s).2 = calculateSpecificity s := by
  have hrw := transformF_rw s.data.length R s.data (le_refl _) hG
  show 100 * idCount (transformCharsF s.data.length R s.data).2 +
      10 * classCount (transformCharsF s.data.length R s.data).2 +
      elemCount (transformCharsF s.data.length R s.data).2 =
    100 * idCount s.data + 10 * classCount s.data + elemCount s.data
  rw [← idCount_rw hrw, ← classCount_rw s.data.length (le_refl _) hrw, ← elemCount_rw hrw]

theorem processRules_spec :
    ∀ (rs : List StyleRule) (st : Registry × List ProcessedRule),
      GoodReg st.1 →
      (∀ pr ∈ st.2, pr.specificity = calculateSpecificity pr.selector) →
      (∀ r ∈ rs, r.specificity = calculateSpecificity r.selector) →
      GoodReg (rs.foldl
        (fun st r =>
          let t := transformSelector st.1 r.selector
          (t.1, st.2 ++ [{ selector := t.2, specificity := r.specificity,
                           properties := r.properties, originalRule := r.originalRule,
                           originalSelector := r.selector }])) st).1 ∧
      (∀ pr ∈ (rs.foldl
        (fun st r =>
          let t := transformSelector st.1 r.selector
          (t.1, st.2 ++ [{ selector := t.2, specificity := r.specificity,
                           properties := r.properties, originalRule := r.originalRule,
                           originalSelector := r.selector }])) st).2,
        pr.specificity = calculateSpecificity pr.selector) := by
  intro rs
  induction rs with
  | nil => intro st h1 h2 _; exact ⟨h1, h2⟩
  | cons r rest ih =>
    intro st h1 h2 h3
    simp only [List.foldl_cons]
    refine ih _ (good_transformSelector _ h1) ?_ (fun x hx => h3 x (List.mem_cons_of_mem _ hx))
    intro pr hpr
    rcases List.mem_append.1 hpr with hmem | hmem
    · exact h2 pr hmem
    · simp only [List.mem_singleton] at hmem
      subst hmem
      show r.specificity = calculateSpecificity (transformSelector st.1 r.selector).2
      rw [calculateSpecificity_transform st.1 r.selector h1]
      exact h3 r (List.mem_cons_self _ _)

theorem processMedia_spec :
    ∀ (mqs : List MediaQuery) (st : Registry × List ProcessedMedia),
      GoodReg st.1 →
      (∀ pm ∈ st.2, ∀ pr ∈ pm.rules, pr.specificity = calculateSpecificity pr.selector) →
      (∀ mq ∈ mqs, ∀ r ∈ mq.rules, r.specificity = calculateSpecificity r.selector) →
      GoodReg (mqs.foldl
        (fun st mq =>
          let t := processRules st.1 mq.rules
          (t.1, st.2 ++ [{ query := mq.query, rules := t.2 }])) st).1 ∧
      (∀ pm ∈ (mqs.foldl
        (fun st mq =>
          let t := processRules st.1 mq.rules
          (t.1, st.2 ++ [{ query := mq.query, rules := t.2 }])) st).2,
        ∀ pr ∈ pm.rules, pr.specificity = calculateSpecificity pr.selector) := by
  intro mqs
  induction mqs with
  | nil => intro st h1 h2 _; exact ⟨h1, h2⟩
  | cons mq rest ih =>
    intro st h1 h2 h3
    simp only [List.foldl_cons]
    have hrules := processRules_spec mq.rules (st.1, []) h1 (by simp)
      (h3 mq (List.mem_cons_self _ _))
    refine ih _ hrules.1 ?_ (fun x hx => h3 x (List.mem_cons_of_mem _ hx))
    intro pm hpm
    rcases List.mem_append.1 hpm with hmem | hmem
    · exact h2 pm hmem
    · simp only [List.mem_singleton] at hmem
      subst hmem
      exact hrules.2

theorem parseCss_spec (items : List CssItem) :
    (∀ r ∈ (parseCss items).styleRules, r.specificity = calculateSpecificity r.selector) ∧
    (∀ mq ∈ (parseCss items).mediaQueries, ∀ r ∈ mq.rules,
      r.specificity = calculateSpecificity r.selector) := by
  constructor
  · intro r hr
    simp only [parseCss, List.mem_flatMap] at hr
    obtain ⟨it, _, hmem⟩ := hr
    cases it with
    | rule r0 =>
      simp only [List.mem_singleton] at hmem
      subst hmem
      rfl
    | atRule n p rs =>
      by_cases hn : n = "media"
      · simp [hn] at hmem
      · simp only [if_neg hn, List.mem_map] at hmem
        obtain ⟨r0, _, hr0⟩ := hmem
        subst hr0
        rfl
  · intro mq hmq r hr
    simp only [parseCss, List.mem_filterMap] at hmq
    obtain ⟨it, _, hmem⟩ := hmq
    cases it with
    | rule r0 => simp at hmem
    | atRule n p rs =>
      by_cases hn : n = "media"
      · simp only [if_pos hn] at hmem
        injection hmem with he
        subst he
        simp only [List.mem_map] at hr
        obtain ⟨r0, _, hr0⟩ := hr
        subst hr0
        rfl
      · simp [hn] at hmem

/-- C7 amended: when the registry prefix consists only of identifier
characters, as the default prefix does, every rule produced by
processCssClasses carries a specificity field equal to calculateSpecificity
of its rewritten selector, in the top level list and in every media query
group alike, because class token rewriting with such a prefix preserves the
specificity of every selector; the copied field therefore stays correct
even though the code never recomputes it. -/
theorem processCssClasses_specificity (items : List CssItem) (R : Registry)
    (hG : GoodReg R) :
    (∀ pr ∈ (processCssClasses R (parseCss items)).2.styleRules,
      pr.specificity = calculateSpecificity pr.selector) ∧
    (∀ pm ∈ (processCssClasses R (parseCss items)).2.mediaQueries,
      ∀ pr ∈ pm.rules, pr.specificity = calculateSpecificity pr.selector) := by
  have hparse := parseCss_spec items
  have hs := processRules_spec (parseCss items).styleRules (R, []) hG (by simp) hparse.1
  have hm := processMedia_spec (parseCss items).mediaQueries
    ((processRules R (parseCss items).styleRules).1, ([] : List ProcessedMedia))
    hs.1 (by simp) hparse.2
  exact ⟨hs.2, hm.2⟩

/-- C7 counterexample: with the configurable prefix set to a hash sign, the
rewritten selector of the class rule .a becomes .#a, whose specificity is
101, while the rule still carries the copied specificity 11 of the original
selector, so the stored specificity does not equal the specificity of the
current selector text. -/
theorem processCssClasses_stale_specificity_counterexample :
    ((processCssClasses (mkRegistry "#")
        (parseCss [CssItem.rule { selector := ".a", decls := [("color", "red")],
                                  raw := ".a{color:red}" }])).2.styleRules.map
      (fun r => (r.selector, r.specificity))) = [(".#a", 11)] ∧
    calculateSpecificity ".#a" = 101 ∧ (11 : ℕ) ≠ 101 := by
  refine ⟨by decide, by decide, by decide⟩

/-- Witness for the amended C7 theorem: the first processed rule of the end
to end stylesheet under the identifier prefix wf- keeps a specificity field
that matches the specificity of its rewritten selector. -/
theorem processCssClasses_specificity_witness :
    ({ selector := ".wf-container", specificity := 11,
       properties := [("width", "100%")], originalRule := ".container{width:100%}",
       originalSelector := ".container" } : ProcessedRule).specificity =
      calculateSpecificity ".wf-container" :=
  (processCssClasses_specificity cssC2 (mkRegistry "wf-") (by decide)).1
    { selector := ".wf-container", specificity := 11,
      properties := [("width", "100%")], originalRule := ".container{width:100%}",
      originalSelector := ".container" } (by decide)
